import Mathlib

/-!
Verification of the invoice extraction core (src/invoice_pipeline/parser.py,
with the per-document failure handling of orchestrator.py / glue_job.py).

Texts are modelled as lists of characters.  A paragraph block (one element of
BeautifulSoup's find_all result) is modelled as an ordered list of text
fragments; the source's p.get_text(sep) is intercalation with sep.  Regular
expressions are embedded as backtracking matchers that follow Python's
leftmost / greedy / lazy ordering.  Machine floats are modelled as rationals
(all numeric literals the grammar accepts are exact decimals).
-/

set_option maxRecDepth 4000

namespace Invoice

abbrev Text := List Char

/-- Python whitespace as relevant to this code base: the six ASCII whitespace
characters plus the non-breaking space U+00A0 (which Python's str.split and
the re class \s both treat as whitespace). -/
def isPySpace (c : Char) : Bool :=
  c = ' ' || c = '\t' || c = '\n' || c = '\r' || c = '\x0b' || c = '\x0c' || c = '\xa0'

/-- Replacement of non-breaking spaces by plain spaces, from norm (parser.py line 67). -/
def cleanNbsp (l : Text) : Text := l.map fun c => if c = '\xa0' then ' ' else c

theorem length_dropWhile_le (p : Char → Bool) (l : Text) :
    (l.dropWhile p).length ≤ l.length := by
  induction l with
  | nil => simp [List.dropWhile]
  | cons c r ih =>
    simp only [List.dropWhile]
    cases p c
    · simp
    · simp; omega

/-- Fueled splitter into maximal whitespace-free words; the fuel only has to
dominate the length (the recursion consumes at least one character per unit),
and is kept explicit so the definition reduces inside the kernel. -/
def wordsF : Nat → Text → List Text
  | 0, _ => []
  | _ + 1, [] => []
  | f + 1, c :: r =>
    if isPySpace c then wordsF f r
    else (c :: r.takeWhile (fun d => !isPySpace d)) :: wordsF f (r.dropWhile (fun d => !isPySpace d))

/-- Splitting into maximal whitespace-free words, as Python str.split() with no
arguments (parser.py line 67); empty words never occur. -/
def wordsWS (l : Text) : List Text := wordsF l.length l

/-- Joining words with single spaces, the " ".join of parser.py line 67. -/
def joinSp : List Text → Text
  | [] => []
  | [w] => w
  | w :: ws => w ++ ' ' :: joinSp ws

/-- norm (parser.py lines 66-67): replace non-breaking spaces, split on
whitespace, join with single spaces. -/
def normL (l : Text) : Text := joinSp (wordsWS (cleanNbsp l))

def lowerT (l : Text) : Text := l.map Char.toLower

def upperT (l : Text) : Text := l.map Char.toUpper

/-- A paragraph block: the ordered text fragments of one soup paragraph. -/
abbrev Para := List Text

/-- p.get_text(sep): concatenation of the fragments with the separator. -/
def getText (sep : Text) : Para → Text
  | [] => []
  | [f] => f
  | f :: rest => f ++ sep ++ getText sep rest

/-- BusinessException (parser.py lines 19-22): a typed failure with a code. -/
structure BizError where
  code : Text
  msg : Text
deriving DecidableEq, Repr

/-- An exception crossing the try/except of pdf_to_html: either a
BusinessException or any other Python exception (carried as a message). -/
inductive Exn where
  | biz (e : BizError)
  | other (msg : Text)
deriving DecidableEq, Repr

deriving instance DecidableEq for Except

/-- The try block of ParserService.pdf_to_html (parser.py lines 106-115): the
external tika call either raises, or yields optional content; empty/missing
content raises BusinessException TIKA_EMPTY_CONTENT, otherwise the html text
is returned (the write to disk is I/O and cannot affect the value). -/
def pdf_to_html_try (tika : Except Text (Option Text)) : Except Exn Text :=
  match tika with
  | Except.error e => Except.error (Exn.other e)
  | Except.ok content =>
    match content with
    | none => Except.error (Exn.biz ⟨"TIKA_EMPTY_CONTENT".toList, "Tika no pudo extraer contenido.".toList⟩)
    | some h =>
      if h = [] then
        Except.error (Exn.biz ⟨"TIKA_EMPTY_CONTENT".toList, "Tika no pudo extraer contenido.".toList⟩)
      else Except.ok h

/-- ParserService.pdf_to_html (parser.py lines 99-117): the whole try block is
wrapped in a blanket except Exception which re-raises every failure, the
TIKA_EMPTY_CONTENT one included, as BusinessException TIKA_FAILURE. -/
def pdf_to_html (tika : Except Text (Option Text)) : Except Exn Text :=
  match pdf_to_html_try tika with
  | Except.ok h => Except.ok h
  | Except.error _ => Except.error (Exn.biz ⟨"TIKA_FAILURE".toList, "Error procesando PDF con Tika.".toList⟩)

/-! ## Backtracking regex machinery

Each combinator consumes a prefix of the input and passes the rest to a
continuation, trying alternatives in exactly the order Python's re engine
does: greedy quantifiers longest-first, lazy ones shortest-first, ordered
alternation left to right. -/

/-- Length of the maximal prefix run of characters satisfying p. -/
def maxRun (p : Char → Bool) (l : Text) : Nat := (l.takeWhile p).length

/-- Try splitting off a prefix of length n, n-1, ..., lo (greedy order);
used for bounded and unbounded greedy quantifiers over a character class. -/
def tryRange (l : Text) (lo : Nat) : Nat → (Text → Text → Option α) → Option α
  | 0, k => if lo = 0 then k [] l else none
  | n + 1, k =>
    (if lo ≤ n + 1 then k (l.take (n + 1)) (l.drop (n + 1)) else none) <|>
      tryRange l lo n k

/-- Greedy one-or-more over a character class. -/
def plusGreedy (p : Char → Bool) (l : Text) (k : Text → Text → Option α) : Option α :=
  tryRange l 1 (maxRun p l) k

/-- Greedy zero-or-more over a character class. -/
def starGreedy (p : Char → Bool) (l : Text) (k : Text → Text → Option α) : Option α :=
  tryRange l 0 (maxRun p l) k

/-- Lazy dot-star: shortest first, dot excludes the newline. -/
def dotStarLazy (acc l : Text) (k : Text → Text → Option α) : Option α :=
  k acc l <|>
    match l with
    | [] => none
    | c :: r => if c = '\n' then none else dotStarLazy (acc ++ [c]) r k

/-- Case-insensitive literal. -/
def litCI : Text → Text → (Text → Option α) → Option α
  | [], l, k => k l
  | _ :: _, [], _ => none
  | c :: cs, d :: ds, k => if c.toLower = d.toLower then litCI cs ds k else none

/-- A single character from a class. -/
def charC (p : Char → Bool) (l : Text) (k : Char → Text → Option α) : Option α :=
  match l with
  | [] => none
  | c :: r => if p c then k c r else none

/-- Exactly three characters from a class (the A-Z range with IGNORECASE). -/
def take3 (p : Char → Bool) (l : Text) (k : Text → Text → Option α) : Option α :=
  match l with
  | a :: b :: c :: r => if p a && p b && p c then k [a, b, c] r else none
  | _ => none

def isDigitB (c : Char) : Bool := c.isDigit
def isUpper (c : Char) : Bool := 'A' ≤ c && c ≤ 'Z'
def isUpAl (c : Char) : Bool := ('A' ≤ c && c ≤ 'Z') || c.isDigit
def isLetter (c : Char) : Bool := ('A' ≤ c && c ≤ 'Z') || ('a' ≤ c && c ≤ 'z')
def isDigComma (c : Char) : Bool := c.isDigit || c = ','
def isDigDash (c : Char) : Bool := c.isDigit || c = '-'
def isDigSpDash (c : Char) : Bool := c.isDigit || isPySpace c || c = '-'

/-- Greedy whitespace-plus separator. -/
def spacePlus (l : Text) (k : Text → Option α) : Option α :=
  plusGreedy isPySpace l fun _ rest => k rest

/-- The optional fraction of NUM_RX (parser.py line 27), greedy. -/
def numFrac (l pre : Text) (k : Text → Text → Option α) : Option α :=
  (match l with
   | '.' :: r => plusGreedy isDigitB r fun ds rest => k (pre ++ '.' :: ds) rest
   | _ => none) <|> k pre l

/-- NUM_RX (parser.py line 27): optional minus sign, one or more
digits/commas, optional decimal fraction; the capture is the consumed text. -/
def numTok (l : Text) (k : Text → Text → Option α) : Option α :=
  (match l with
   | '-' :: r => plusGreedy isDigComma r fun ds rest => numFrac rest ('-' :: ds) k
   | _ => none) <|>
    plusGreedy isDigComma l fun ds rest => numFrac rest ds k

/-- ONLY_NUM_RX.fullmatch (parser.py lines 28, 69-70): the whole string is one
numeric token. -/
def onlyNumTok (l : Text) : Bool :=
  (numTok l fun _ rest => if rest = [] then some () else none).isSome

/-- The captured groups of ROW_RX. -/
structure RowCaps where
  event_code : Text
  description : Text
  service_code : Text
  uom : Text
  qty : Text
  rate : Text
  charge : Text
  tax : Text
  total : Text
deriving DecidableEq, Repr

/-- The $ anchor: end of input, or just before one final newline. -/
def endAnchor (caps : RowCaps) (l : Text) : Option RowCaps :=
  match l with
  | [] => some caps
  | ['\n'] => some caps
  | _ => none

/-- ROW_RX applied with re.match (parser.py lines 30-43): the anchored detail
row grammar, with lazy description and greedy everything else. -/
def rowMatch (l : Text) : Option RowCaps :=
  plusGreedy isUpAl l fun ec r1 =>
  spacePlus r1 fun r2 =>
  dotStarLazy [] r2 fun desc r3 =>
  spacePlus r3 fun r4 =>
  tryRange r4 1 (min 4 (maxRun isUpAl r4)) fun sc r5 =>
  spacePlus r5 fun r6 =>
  charC isUpper r6 fun u r7 =>
  spacePlus r7 fun r8 =>
  numTok r8 fun q r9 =>
  spacePlus r9 fun r10 =>
  numTok r10 fun rt r11 =>
  spacePlus r11 fun r12 =>
  numTok r12 fun ch r13 =>
  spacePlus r13 fun r14 =>
  numTok r14 fun tx r15 =>
  spacePlus r15 fun r16 =>
  numTok r16 fun tt r17 =>
  endAnchor ⟨ec, desc, sc, [u], q, rt, ch, tx, tt⟩ r17

/-- re.search: try a match at every start position, leftmost first. -/
def searchPos (f : Text → Option α) : Text → Option α
  | [] => f []
  | c :: r => f (c :: r) <|> searchPos f r

/-! ## Field patterns and metadata helpers (parser.py lines 44-57, 118-167) -/

/-- A single literal character. -/
def litCh (c : Char) (l : Text) (k : Text → Option α) : Option α :=
  match l with
  | d :: r => if d = c then k r else none
  | [] => none

/-- The optional label symbol of INVOICE_FIELD_RX: hash sign, or "No" with an
optional dot, or "Number"; alternatives in source order, then absent. -/
def optLabelSym (l : Text) (k : Text → Option α) : Option α :=
  litCh '#' l k <|>
  (litCI "No".toList l fun r => litCh '.' r k <|> k r) <|>
  litCI "Number".toList l k <|>
  k l

/-- An optional literal colon. -/
def optColon (l : Text) (k : Text → Option α) : Option α :=
  litCh ':' l k <|> k l

/-- The capturing tail of INVOICE_FIELD_RX: a digit followed by at least nine
digits or hyphens, greedy. -/
def capNumber (l : Text) : Option Text :=
  match l with
  | [] => none
  | c :: r =>
    if c.isDigit then tryRange r 9 (maxRun isDigDash r) fun ds _ => some (c :: ds)
    else none

/-- A match attempt of INVOICE_FIELD_RX (parser.py lines 44-47) at one
position, returning group 1. -/
def invLabelMatchAt (l : Text) : Option Text :=
  litCI "Invoice".toList l fun r1 =>
  starGreedy isPySpace r1 fun _ r2 =>
  optLabelSym r2 fun r3 =>
  starGreedy isPySpace r3 fun _ r4 =>
  optColon r4 fun r5 =>
  starGreedy isPySpace r5 fun _ r6 =>
  capNumber r6

/-- A match attempt of the unlabeled fallback pattern of grab_number
(parser.py line 128): a digit followed by at least eight digits, whitespace
characters or hyphens, greedy. -/
def capFallback (l : Text) : Option Text :=
  match l with
  | [] => none
  | c :: r =>
    if c.isDigit then tryRange r 8 (maxRun isDigSpDash r) fun ds _ => some (c :: ds)
    else none

def digitsOnly (l : Text) : Text := l.filter (fun c => c.isDigit)

def natOfDigits (l : Text) : Nat :=
  l.foldl (fun a c => a * 10 + (c.toNat - '0'.toNat)) 0

/-- grab_number (parser.py lines 125-130): labeled pattern first, then the
unlabeled digit-run fallback; non-digits stripped before the integer is
formed. -/
def grab_number (t : Text) : Option Nat :=
  match searchPos invLabelMatchAt t with
  | some g => some (natOfDigits (digitsOnly g))
  | none =>
    match searchPos capFallback t with
    | some g => some (natOfDigits (digitsOnly g))
    | none => none

/-- A match attempt of BILLING_DATE_RX (parser.py lines 49-52) at one
position: the three groups month letters, day digits, year digits. -/
def billingMatchAt (l : Text) : Option (Text × Text × Text) :=
  litCI "Billing".toList l fun r1 =>
  starGreedy isPySpace r1 fun _ r2 =>
  litCI "Cycle".toList r2 fun r3 =>
  starGreedy isPySpace r3 fun _ r4 =>
  litCI "Date".toList r4 fun r5 =>
  starGreedy isPySpace r5 fun _ r6 =>
  litCh ':' r6 fun r7 =>
  starGreedy isPySpace r7 fun _ r8 =>
  take3 isLetter r8 fun mon r9 =>
  spacePlus r9 fun r10 =>
  tryRange r10 1 (min 2 (maxRun isDigitB r10)) fun day r11 =>
  spacePlus r11 fun r12 =>
  (match r12 with
   | a :: b :: c :: d :: _ =>
     if a.isDigit && b.isDigit && c.isDigit && d.isDigit then some (mon, day, [a, b, c, d])
     else none
   | _ => none)

/-- The MONTHS table (parser.py lines 54-57). -/
def monthsLookup (m : Text) : Option Nat :=
  if m = "JAN".toList then some 1
  else if m = "FEB".toList then some 2
  else if m = "MAR".toList then some 3
  else if m = "APR".toList then some 4
  else if m = "MAY".toList then some 5
  else if m = "JUN".toList then some 6
  else if m = "JUL".toList then some 7
  else if m = "AUG".toList then some 8
  else if m = "SEP".toList then some 9
  else if m = "OCT".toList then some 10
  else if m = "NOV".toList then some 11
  else if m = "DEC".toList then some 12
  else none

def isLeap (y : Nat) : Bool := y % 4 = 0 && (y % 100 ≠ 0 || y % 400 = 0)

def daysInMonth (y m : Nat) : Nat :=
  if m = 2 then (if isLeap y then 29 else 28)
  else if m = 4 || m = 6 || m = 9 || m = 11 then 30
  else 31

structure PDate where
  year : Nat
  month : Nat
  day : Nat
deriving DecidableEq, Repr

/-- The datetime.date constructor: a value for a valid proleptic Gregorian
date in years 1-9999, a ValueError (here: none) otherwise. -/
def mkDate (y m d : Nat) : Option PDate :=
  if 1 ≤ y && y ≤ 9999 && 1 ≤ m && m ≤ 12 && 1 ≤ d && d ≤ daysInMonth y m then
    some ⟨y, m, d⟩
  else none

/-- grab_billing_date (parser.py lines 132-141): regex search, fixed month
table, date construction with ValueError caught as absence. -/
def grab_billing_date (t : Text) : Option PDate :=
  match searchPos billingMatchAt t with
  | none => none
  | some (mon, day, year) =>
    match monthsLookup (upperT mon) with
    | none => none
    | some m => mkDate (natOfDigits year) m (natOfDigits day)

/-- A match attempt of CURRENCY_RX (parser.py line 53) at one position,
returning group 1. -/
def currencyMatchAt (l : Text) : Option Text :=
  litCI "Currency".toList l fun r1 =>
  starGreedy isPySpace r1 fun _ r2 =>
  litCh ':' r2 fun r3 =>
  starGreedy isPySpace r3 fun _ r4 =>
  take3 isLetter r4 fun g _ => some g

/-- grab_currency (parser.py lines 143-145). -/
def grab_currency (t : Text) : Option Text :=
  (searchPos currencyMatchAt t).map upperT

/-! ## Metadata extraction (parser.py lines 118-167) -/

/-- Python `a or b` on the integers returned by grab_number: 0 is falsy. -/
def truthyNum : Option Nat → Bool
  | none => false
  | some n => n != 0

def orNum (a b : Option Nat) : Option Nat := if truthyNum a then a else b

/-- Python `a or b` for grab_billing_date / grab_currency results: a date
object is always truthy and a captured currency is three letters, never the
empty (falsy) string, so `or` is plain option fallback there. -/
def orOpt (a b : Option α) : Option α :=
  match a with
  | some x => some x
  | none => b

/-- The anchor test of parser.py line 149: the paragraph's full text (default
separator of get_text is empty) normalizes case-insensitively to the literal
word invoice. -/
def isAnchor (p : Para) : Bool := lowerT (normL (getText [] p)) == "invoice".toList

structure Meta where
  inv_no : Option Nat
  inv_dt : Option PDate
  curr : Option Text
deriving DecidableEq, Repr

/-- The anchored-layer triple of parser.py lines 150-154, as a function of the
following paragraph's text and the anchor paragraph's own text: each field
pattern is applied to the following paragraph's text first and the anchor
paragraph's text second. -/
def anchoredLayer (nextTxt blockTxt : Text) : Meta :=
  ⟨orNum (grab_number nextTxt) (grab_number blockTxt),
   orOpt (grab_billing_date nextTxt) (grab_billing_date blockTxt),
   orOpt (grab_currency nextTxt) (grab_currency blockTxt)⟩

/-- The enumerate-and-break loop of parser.py lines 148-155: index of the
first anchor paragraph. -/
def anchorIdx : List Para → Option Nat
  | [] => none
  | p :: rest => if isAnchor p then some 0 else (anchorIdx rest).map (· + 1)

/-- ParserService.extract_invoice_meta (parser.py lines 118-167): anchored
layer at the first paragraph whose text is exactly the word invoice, then a
document-wide fallback over the newline-joined paragraph texts for any field
still unresolved. -/
def extract_invoice_meta (ps : List Para) : Meta :=
  let anchored : Meta :=
    match anchorIdx ps with
    | none => ⟨none, none, none⟩
    | some i =>
      let nextTxt := if i + 1 < ps.length then getText [' '] (ps.getD (i + 1) []) else []
      let blockTxt := getText [' '] (ps.getD i [])
      anchoredLayer nextTxt blockTxt
  if anchored.inv_no = none ∨ anchored.inv_dt = none ∨ anchored.curr = none then
    let fullText := getText ['\n'] (ps.map (getText [' ']))
    ⟨orNum anchored.inv_no (grab_number fullText),
     orOpt anchored.inv_dt (grab_billing_date fullText),
     orOpt anchored.curr (grab_currency fullText)⟩
  else anchored

/-! ## Table parsing (parser.py lines 58-80, 168-191) -/

def headerSig1 : Text := "Event Service Quantity/ Tax Total".toList
def headerSig2 : Text := "Code Description Code UOM Amount Rate Charge Amount Charge".toList

/-- Literal prefix test. -/
def prefixEq : Text → Text → Bool
  | [], _ => true
  | _ :: _, [] => false
  | c :: cs, d :: ds => c = d && prefixEq cs ds

/-- The Python substring operator `in` (case-sensitive). -/
def containsSub (needle : Text) : Text → Bool
  | [] => prefixEq needle []
  | c :: r => prefixEq needle (c :: r) || containsSub needle r

/-- is_detail_header (parser.py lines 72-74): the normalized text contains
both header signature phrases. -/
def is_detail_header (t : Text) : Bool :=
  containsSub headerSig1 (normL t) && containsSub headerSig2 (normL t)

def allDigits (l : Text) : Bool := l.all (fun c => c.isDigit)

/-- The Python float() literal forms reachable from NUM_RX captures with
commas stripped: digits with an optional fraction, or a bare fraction.  The
exact decimal value is returned as numerator and power-of-ten denominator. -/
def parseUnsigned (l : Text) : Option (Nat × Nat) :=
  match l.span (fun c => c.isDigit) with
  | (ds, rest) =>
    match rest with
    | [] => if ds = [] then none else some (natOfDigits ds, 1)
    | '.' :: fr =>
      if ds = [] && fr = [] then none
      else if allDigits fr then
        some (natOfDigits ds * 10 ^ fr.length + natOfDigits fr, 10 ^ fr.length)
      else none
    | _ => none

def parsePyFloat (l : Text) : Option ℚ :=
  match l with
  | '-' :: r => (parseUnsigned r).map fun q => mkRat (-(q.1 : Int)) q.2
  | '+' :: r => (parseUnsigned r).map fun q => mkRat (q.1 : Int) q.2
  | _ => (parseUnsigned l).map fun q => mkRat (q.1 : Int) q.2

/-- to_float (parser.py lines 76-80): strip commas, coerce, 0.0 on failure. -/
def to_float (l : Text) : ℚ :=
  match parsePyFloat (l.filter (fun c => c ≠ ',')) with
  | some q => q
  | none => 0

/-- Splitting on the newline separator, Python str.split with an explicit
separator: empty pieces are kept. -/
def splitNl : Text → List Text
  | [] => [[]]
  | '\n' :: r => [] :: splitNl r
  | c :: r =>
    match splitNl r with
    | [] => [[c]]
    | w :: ws => (c :: w) :: ws

/-- Zero-padded decimal digits for date.isoformat. -/
def padDigits (n w : Nat) : Text :=
  let s := Nat.toDigits 10 n
  List.replicate (w - s.length) '0' ++ s

/-- date.isoformat: YYYY-MM-DD. -/
def isoformat (d : PDate) : Text :=
  padDigits d.year 4 ++ '-' :: padDigits d.month 2 ++ '-' :: padDigits d.day 2

structure Row where
  invoice_number : Option Nat
  billing_cycle_date : Option Text
  currency : Option Text
  event_code : Text
  description : Text
  service_code : Text
  uom : Text
  quantity_amount : ℚ
  rate : ℚ
  charge : ℚ
  tax_amount : ℚ
  total_charge : ℚ
deriving DecidableEq, Repr

/-- The loop body of parse_detail_table (parser.py lines 176-190): normalize
the line, try the row grammar, emit one stamped row on a match and nothing
otherwise. -/
def rowsOfLine (m : Meta) (line : Text) : List Row :=
  match rowMatch (normL line) with
  | none => []
  | some g =>
    [{ invoice_number := m.inv_no,
       billing_cycle_date := m.inv_dt.map isoformat,
       currency := m.curr,
       event_code := g.event_code,
       description := g.description,
       service_code := g.service_code,
       uom := g.uom,
       quantity_amount := to_float g.qty,
       rate := to_float g.rate,
       charge := to_float g.charge,
       tax_amount := to_float g.tax,
       total_charge := to_float g.total }]

/-- ParserService.parse_detail_table (parser.py lines 168-191): metadata once
per document, then every line of every paragraph through the row grammar, in
document order. -/
def parse_detail_table (ps : List Para) : List Row :=
  let m := extract_invoice_meta ps
  ps.flatMap fun p => (splitNl (getText ['\n'] p)).flatMap (rowsOfLine m)

/-! ## ParserService.run and the per-document pipeline step -/

/-- ParserService.run (parser.py lines 193-209): INPUT_MISSING when the
source document reference does not resolve, then conversion, then table
parsing; the row list is returned as is, empty or not.  The converted html
document is modelled directly at paragraph granularity; content to which
Tika yields no text is the falsy-content case of pdf_to_html. -/
def serviceRun (present : Bool) (tika : Except Text (Option (List Para))) :
    Except Exn (List Row) :=
  if ¬present then
    Except.error (Exn.biz ⟨"INPUT_MISSING".toList, "El archivo PDF no se encuentra.".toList⟩)
  else
    match
      (match tika with
       | Except.error e => Except.error (Exn.other e)
       | Except.ok none =>
         Except.error (Exn.biz ⟨"TIKA_EMPTY_CONTENT".toList, "Tika no pudo extraer contenido.".toList⟩)
       | Except.ok (some d) =>
         if d = [] then
           Except.error (Exn.biz ⟨"TIKA_EMPTY_CONTENT".toList, "Tika no pudo extraer contenido.".toList⟩)
         else Except.ok d : Except Exn (List Para))
    with
    | Except.ok d => Except.ok (parse_detail_table d)
    | Except.error _ =>
      Except.error (Exn.biz ⟨"TIKA_FAILURE".toList, "Error procesando PDF con Tika.".toList⟩)

/-- The per-document parse step of the orchestrator (orchestrator.py lines
135-137, identically glue_job.py lines 128-130): call ParserService.run and
raise BusinessException PARSER_EMPTY_RESULT when it returns no rows. -/
def pipelineParse (present : Bool) (tika : Except Text (Option (List Para))) :
    Except Exn (List Row) :=
  match serviceRun present tika with
  | Except.error e => Except.error e
  | Except.ok rows =>
    if rows = [] then
      Except.error (Exn.biz ⟨"PARSER_EMPTY_RESULT".toList,
        "El parser no devolvió ninguna fila de detalle.".toList⟩)
    else Except.ok rows

/-! ## Fuzzy similarity matcher (parser.py lines 82-89)

The similarity score comes from difflib.SequenceMatcher.ratio (standard
library, not in this repository): twice the total size of the recursively
chosen longest matching blocks over the sum of the lengths (1 when both
strings are empty), modelled here by its documented algorithm without the
junk heuristics, which are inactive on short inputs. -/

/-- Length of the longest common prefix of two texts. -/
def commonLen : Text → Text → Nat
  | a :: as, b :: bs => if a = b then commonLen as bs + 1 else 0
  | _, _ => 0

/-- The longest matching block (start in a, start in b, size); ties are
resolved toward the earliest start in a, then in b, as in
SequenceMatcher.find_longest_match. -/
def lcsBest (a b : Text) : Nat × Nat × Nat :=
  (List.range a.length).foldl
    (fun best i =>
      (List.range b.length).foldl
        (fun best j =>
          let kl := commonLen (a.drop i) (b.drop j)
          if kl > best.2.2 then (i, j, kl) else best)
        best)
    (0, 0, 0)

/-- Total size of all matching blocks: recursively split around the longest
matching block (SequenceMatcher.get_matching_blocks).  The fuel is bounded
below by the joint length, which strictly decreases at each split. -/
def matchTotalF : Nat → Text → Text → Nat
  | 0, _, _ => 0
  | fuel + 1, a, b =>
    match lcsBest a b with
    | (i, j, kl) =>
      if kl = 0 then 0
      else
        matchTotalF fuel (a.take i) (b.take j) + kl +
          matchTotalF fuel (a.drop (i + kl)) (b.drop (j + kl))

def matchTotal (a b : Text) : Nat := matchTotalF (a.length + b.length) a b

/-- SequenceMatcher.ratio: twice the matched total over the joint length. -/
def ratioSM (a b : Text) : ℚ :=
  if a.length + b.length = 0 then 1
  else mkRat (2 * matchTotal a b) (a.length + b.length)

/-- The per-candidate score used by fuzzy_best (parser.py line 86), with sn
the already normalized and lowercased query. -/
def simOf (sn c : Text) : ℚ := ratioSM sn (lowerT (normL c))

/-- The loop of fuzzy_best (parser.py lines 84-88): strict improvement only,
so the earliest candidate with a given score is kept. -/
def fuzzyGo (sn : Text) : List Text → Option Text × ℚ → Option Text × ℚ
  | [], acc => acc
  | c :: cs, (best, score) =>
    let r := simOf sn c
    if r > score then fuzzyGo sn cs (some c, r) else fuzzyGo sn cs (best, score)

/-- fuzzy_best (parser.py lines 82-89). -/
def fuzzy_best (s : Text) (cands : List Text) : Option Text × ℚ :=
  fuzzyGo (lowerT (normL s)) cands (none, 0)

/-! ## Theorems for the claims -/

/-- C1: when the conversion step succeeds but Tika yields no text content,
ParserService.pdf_to_html does raise the distinct empty-content code inside
its try block, but the blanket except re-wraps that exception, so the failure
a caller observes carries the generic code TIKA_FAILURE (the code's name for
the spec's CONVERSION_FAILURE) and not the distinct TIKA_EMPTY_CONTENT (the
spec's CONVERSION_EMPTY_CONTENT). -/
theorem C1_empty_content_yields_generic_code :
    pdf_to_html (Except.ok none) =
      Except.error (Exn.biz ⟨"TIKA_FAILURE".toList, "Error procesando PDF con Tika.".toList⟩) ∧
    pdf_to_html (Except.ok (some [])) =
      Except.error (Exn.biz ⟨"TIKA_FAILURE".toList, "Error procesando PDF con Tika.".toList⟩) ∧
    pdf_to_html_try (Except.ok none) =
      Except.error (Exn.biz ⟨"TIKA_EMPTY_CONTENT".toList, "Tika no pudo extraer contenido.".toList⟩) ∧
    "TIKA_FAILURE".toList ≠ "TIKA_EMPTY_CONTENT".toList :=
  ⟨rfl, rfl, rfl, by decide⟩

/-- C2 counterexample: on a document that converts successfully to nonempty
text in which no line matches the row grammar, ParserService.run returns the
empty row sequence and raises nothing; the claim that run or
parse_detail_table raises PARSER_EMPTY_RESULT is false of the code. -/
theorem C2_run_returns_empty_row_list :
    serviceRun true (Except.ok (some [["hello world".toList]])) = Except.ok [] ∧
    parse_detail_table [["hello world".toList]] = [] := ⟨by decide, by decide⟩

/-- C2 amended: the PARSER_EMPTY_RESULT failure is raised one call above
ParserService.run, by the orchestrator's per-document step (orchestrator.py
lines 135-137 and glue_job.py lines 128-130), exactly when run returns zero
rows. -/
theorem C2_pipeline_raises_parser_empty_result
    (present : Bool) (tika : Except Text (Option (List Para)))
    (h : serviceRun present tika = Except.ok []) :
    pipelineParse present tika =
      Except.error (Exn.biz ⟨"PARSER_EMPTY_RESULT".toList,
        "El parser no devolvió ninguna fila de detalle.".toList⟩) := by
  simp [pipelineParse, h]

/-- C2 witness: the amended theorem at the concrete empty-parse document. -/
theorem C2_pipeline_raises_parser_empty_result_witness :
    pipelineParse true (Except.ok (some [["hello world".toList]])) =
      Except.error (Exn.biz ⟨"PARSER_EMPTY_RESULT".toList,
        "El parser no devolvió ninguna fila de detalle.".toList⟩) :=
  C2_pipeline_raises_parser_empty_result true (Except.ok (some [["hello world".toList]]))
    (by decide)

/-- C5: the single line of the spec's row example parses to exactly one row
with the stated captures and comma-stripped float coercions. -/
theorem C5_example_row_parses :
    parse_detail_table [["EVT1 Network Access Fee SVC A 10 2.50 25.00 1.25 26.25".toList]] =
      [{ invoice_number := none,
         billing_cycle_date := none,
         currency := none,
         event_code := "EVT1".toList,
         description := "Network Access Fee".toList,
         service_code := "SVC".toList,
         uom := "A".toList,
         quantity_amount := 10,
         rate := 5 / 2,
         charge := 25,
         tax_amount := 5 / 4,
         total_charge := 105 / 4 }] := by
  have h : parse_detail_table
      [["EVT1 Network Access Fee SVC A 10 2.50 25.00 1.25 26.25".toList]] =
      [{ invoice_number := none,
         billing_cycle_date := none,
         currency := none,
         event_code := "EVT1".toList,
         description := "Network Access Fee".toList,
         service_code := "SVC".toList,
         uom := "A".toList,
         quantity_amount := mkRat 10 1,
         rate := mkRat 250 100,
         charge := mkRat 2500 100,
         tax_amount := mkRat 125 100,
         total_charge := mkRat 2625 100 }] := by decide
  rw [h]
  norm_num [Rat.mkRat_eq_div]

/-- C10: with the document-wide fallback joining paragraph texts by newlines
and the unlabeled invoice-number pattern admitting embedded whitespace, a
digit run that spans the boundary of two adjacent paragraphs is captured:
this two-paragraph document has no labeled invoice number and neither
paragraph alone yields a number, yet extraction returns the concatenated
digits of both. -/
theorem C10_fallback_spans_paragraph_boundary :
    extract_invoice_meta [["abc 12345".toList], ["6789 def".toList]] =
      ⟨some 123456789, none, none⟩ ∧
    grab_number "abc 12345".toList = none ∧
    grab_number "6789 def".toList = none :=
  ⟨by decide, by decide, by decide⟩

/-- Inversion for option alternation: a successful alternative is the left or
the right branch. -/
theorem hOrElse_eq_some {a b : Option α} {x : α} (h : (a <|> b) = some x) :
    a = some x ∨ b = some x := by
  cases a
  · right; simpa [HOrElse.hOrElse, OrElse.orElse, Option.orElse] using h
  · left; simpa [HOrElse.hOrElse, OrElse.orElse, Option.orElse] using h

/-- Inversion for the greedy range combinator: success names a split length
between the bounds. -/
theorem tryRange_eq_some {l : Text} {k : Text → Text → Option α} {x : α} :
    ∀ {n : Nat} {lo : Nat}, tryRange l lo n k = some x →
      ∃ m, lo ≤ m ∧ m ≤ n ∧ k (l.take m) (l.drop m) = some x := by
  intro n
  induction n with
  | zero =>
    intro lo h
    unfold tryRange at h
    split at h
    · exact ⟨0, by omega, by omega, by simpa using h⟩
    · cases h
  | succ n ih =>
    intro lo h
    unfold tryRange at h
    rcases hOrElse_eq_some h with h1 | h1
    · split at h1
      · exact ⟨n + 1, by omega, Nat.le_refl _, h1⟩
      · cases h1
    · obtain ⟨m, h2, h3, h4⟩ := ih h1
      exact ⟨m, h2, by omega, h4⟩

theorem plusGreedy_eq_some {p : Char → Bool} {l : Text} {k : Text → Text → Option α} {x : α}
    (h : plusGreedy p l k = some x) :
    ∃ m, 1 ≤ m ∧ m ≤ maxRun p l ∧ k (l.take m) (l.drop m) = some x :=
  tryRange_eq_some h

/-- Helper: a line whose normalized text starts with an uppercase or digit
character followed by one that is neither in that class nor whitespace can
never match ROW_RX, because the event-code run is forced to a single
character and the mandatory whitespace after it fails. -/
theorem rowMatch_none_of_second_breaks (c0 c1 : Char) (rest : Text)
    (h0 : isUpAl c0 = true) (h1 : isUpAl c1 = false) (h2 : isPySpace c1 = false) :
    rowMatch (c0 :: c1 :: rest) = none := by
  by_contra hne
  obtain ⟨x, hx⟩ : ∃ x, rowMatch (c0 :: c1 :: rest) = some x := by
    cases hr : rowMatch (c0 :: c1 :: rest)
    · exact absurd hr hne
    · exact ⟨_, rfl⟩
  obtain ⟨m, hm1, hm2, hk⟩ := plusGreedy_eq_some hx
  have hmr : maxRun isUpAl (c0 :: c1 :: rest) = 1 := by
    simp [maxRun, List.takeWhile_cons, h0, h1]
  have hm1' : m = 1 := by omega
  subst hm1'
  simp only [List.take_succ_cons, List.take_zero, List.drop_succ_cons, List.drop_zero] at hk
  obtain ⟨m2, hm21, hm22, _⟩ := plusGreedy_eq_some hk
  have hz : maxRun isPySpace (c1 :: rest) = 0 := by
    simp [maxRun, List.takeWhile_cons, h2]
  omega

def c4Line : Text :=
  ("X1 Event Service Quantity/ Tax Total Code Description Code UOM " ++
   "Amount Rate Charge Amount Charge SVC A 1 2 3 4 5").toList

/-- C4 counterexample: parse_detail_table performs no header-banner check (it
never calls is_detail_header), so a line whose normalized text contains both
fixed signature phrases and that also happens to match the full row grammar
does emit a row. -/
theorem C4_header_line_with_grammar_tail_emits_row :
    is_detail_header c4Line = true ∧
    (parse_detail_table [[c4Line]]).length = 1 ∧
    (parse_detail_table [[c4Line]]).map Row.event_code = ["X1".toList] :=
  ⟨by decide, by decide, by decide⟩

/-- C4 amended: no header filter runs, but the actual banner is protected by
the row grammar itself: any line whose normalized text begins with the first
signature phrase (as every real banner line does) can never match ROW_RX and
yields no row. -/
theorem C4_banner_prefixed_line_yields_no_row (m : Meta) (line : Text)
    (h : (normL line).take headerSig1.length = headerSig1) :
    rowsOfLine m line = [] := by
  have hsplit : normL line = headerSig1 ++ (normL line).drop headerSig1.length := by
    conv_lhs => rw [← List.take_append_drop headerSig1.length (normL line)]
    rw [h]
  have hev : normL line =
      'E' :: 'v' ::
        ("ent Service Quantity/ Tax Total".toList ++ (normL line).drop headerSig1.length) := by
    rw [hsplit]; rfl
  have hnone : rowMatch (normL line) = none := by
    rw [hev]
    exact rowMatch_none_of_second_breaks 'E' 'v' _ (by decide) (by decide) (by decide)
  simp only [rowsOfLine, hnone]

def c4Banner : Text :=
  ("Event Service Quantity/ Tax Total Code Description Code UOM " ++
   "Amount Rate Charge Amount Charge").toList

/-- C4 witness: the amended theorem applied to the literal banner line made
of the two signature phrases. -/
theorem C4_banner_prefixed_line_yields_no_row_witness :
    (normL c4Banner).take headerSig1.length = headerSig1 ∧
    rowsOfLine ⟨none, none, none⟩ c4Banner = [] :=
  ⟨by decide, C4_banner_prefixed_line_yields_no_row ⟨none, none, none⟩ c4Banner (by decide)⟩

/-- C6: whenever the billing-date pattern first matches with a recognized
month abbreviation but the captured day and year do not form a valid calendar
date (the date constructor refuses them), grab_billing_date resolves to
absence; no exception escapes, since the ValueError branch is modelled by the
none result of mkDate. -/
theorem C6_invalid_date_resolves_absent (t mon day year : Text) (m : Nat)
    (hs : searchPos billingMatchAt t = some (mon, day, year))
    (hm : monthsLookup (upperT mon) = some m)
    (hv : mkDate (natOfDigits year) m (natOfDigits day) = none) :
    grab_billing_date t = none := by
  simp [grab_billing_date, hs, hm, hv]

/-- C6 witness: the spec's example text, an invalid 30 February 2024; the
whole metadata extraction also leaves the field absent on a document holding
only this text. -/
theorem C6_invalid_date_resolves_absent_witness :
    searchPos billingMatchAt "Billing Cycle Date: FEB 30 2024".toList =
      some ("FEB".toList, "30".toList, "2024".toList) ∧
    monthsLookup (upperT "FEB".toList) = some 2 ∧
    mkDate 2024 2 30 = none ∧
    grab_billing_date "Billing Cycle Date: FEB 30 2024".toList = none ∧
    (extract_invoice_meta [["Billing Cycle Date: FEB 30 2024".toList]]).inv_dt = none :=
  ⟨by decide, by decide, by decide,
   C6_invalid_date_resolves_absent "Billing Cycle Date: FEB 30 2024".toList
     "FEB".toList "30".toList "2024".toList 2 (by decide) (by decide) (by decide),
   by decide⟩

/-- Characters taken by a greedy run all satisfy its class. -/
theorem take_mem_of_le_maxRun {p : Char → Bool} :
    ∀ {l : Text} {m : Nat}, m ≤ maxRun p l → ∀ c ∈ l.take m, p c = true := by
  intro l
  induction l with
  | nil => intro m _ c hc; simp at hc
  | cons a r ih =>
    intro m hm c hc
    cases m with
    | zero => simp at hc
    | succ m =>
      by_cases hp : p a
      · have ha : maxRun p (a :: r) = maxRun p r + 1 := by
          simp [maxRun, List.takeWhile_cons, hp]
        rw [ha] at hm
        simp only [List.take_succ_cons, List.mem_cons] at hc
        rcases hc with rfl | hc
        · exact hp
        · exact ih (by omega) c hc
      · have ha : maxRun p (a :: r) = 0 := by
          simp [maxRun, List.takeWhile_cons, hp]
        omega

/-- A positive greedy run forces a satisfying head character. -/
theorem head_sat_of_maxRun_pos (p : Char → Bool) (l : Text) (h : 1 ≤ maxRun p l) :
    ∃ c r, l = c :: r ∧ p c = true := by
  cases l with
  | nil => simp [maxRun] at h
  | cons c r =>
    by_cases hc : p c
    · exact ⟨c, r, rfl, hc⟩
    · have : maxRun p (c :: r) = 0 := by simp [maxRun, List.takeWhile_cons, hc]
      omega

/-- A digit or comma is not whitespace. -/
theorem no_space_of_digComma {c : Char} (h : isDigComma c = true) : isPySpace c = false := by
  cases hc : isPySpace c
  · rfl
  · exfalso
    simp only [isPySpace, Bool.or_eq_true, decide_eq_true_eq] at hc
    rcases hc with ((((((h1 | h1) | h1) | h1) | h1) | h1) | h1) <;> subst h1 <;>
      simp [isDigComma, Char.isDigit] at h

/-- A digit is not whitespace. -/
theorem no_space_of_digit {c : Char} (h : isDigitB c = true) : isPySpace c = false :=
  no_space_of_digComma (by simp [isDigComma, isDigitB] at *; exact Or.inl h)

/-- Decomposition of the optional-fraction matcher: either no fraction is
consumed, or a dot and a digit run are. -/
theorem numFrac_eq_some_decomp {l pre : Text} {k : Text → Text → Option α} {x : α}
    (h : numFrac l pre k = some x) :
    k pre l = some x ∨
      ∃ ds rest, l = '.' :: (ds ++ rest) ∧ (∀ c ∈ ds, isDigitB c = true) ∧
        k (pre ++ '.' :: ds) rest = some x := by
  unfold numFrac at h
  rcases hOrElse_eq_some h with h1 | h1
  · right
    split at h1
    next r =>
      obtain ⟨m, hm1, hm2, hk⟩ := plusGreedy_eq_some h1
      exact ⟨r.take m, r.drop m, by simp,
        fun c hcm => take_mem_of_le_maxRun hm2 c hcm, hk⟩
    next => cases h1
  · left; exact h1

/-- Decomposition of the NUM_RX matcher: the consumed capture contains no
whitespace character. -/
theorem numTok_eq_some_no_space {l : Text} {k : Text → Text → Option α} {x : α}
    (h : numTok l k = some x) :
    ∃ pre rest, l = pre ++ rest ∧ (∀ c ∈ pre, isPySpace c = false) ∧
      k pre rest = some x := by
  unfold numTok at h
  rcases hOrElse_eq_some h with h1 | h1
  · split at h1
    next r =>
      obtain ⟨m, hm1, hm2, hk⟩ := plusGreedy_eq_some h1
      rcases numFrac_eq_some_decomp hk with h2 | ⟨ds, rest, hsplit, hds, hk2⟩
      · refine ⟨'-' :: r.take m, r.drop m, by simp, ?_, h2⟩
        intro c hc
        rcases List.mem_cons.mp hc with rfl | hc
        · decide
        · exact no_space_of_digComma (take_mem_of_le_maxRun hm2 c hc)
      · refine ⟨'-' :: r.take m ++ '.' :: ds, rest, ?_, ?_, hk2⟩
        · have : r = r.take m ++ r.drop m := (List.take_append_drop m r).symm
          calc ('-' :: r : Text) = '-' :: (r.take m ++ r.drop m) := by rw [← this]
            _ = '-' :: (r.take m ++ ('.' :: (ds ++ rest))) := by rw [hsplit]
            _ = ('-' :: r.take m ++ '.' :: ds) ++ rest := by simp
        · intro c hc
          rcases List.mem_cons.mp hc with rfl | hc
          · decide
          rcases List.mem_append.mp hc with hc | hc
          · exact no_space_of_digComma (take_mem_of_le_maxRun hm2 c hc)
          rcases List.mem_cons.mp hc with rfl | hc
          · decide
          · exact no_space_of_digit (hds c hc)
    next => cases h1
  · obtain ⟨m, hm1, hm2, hk⟩ := plusGreedy_eq_some h1
    rcases numFrac_eq_some_decomp hk with h2 | ⟨ds, rest, hsplit, hds, hk2⟩
    · exact ⟨l.take m, l.drop m, by simp,
        fun c hc => no_space_of_digComma (take_mem_of_le_maxRun hm2 c hc), h2⟩
    · refine ⟨l.take m ++ '.' :: ds, rest, ?_, ?_, hk2⟩
      · have hl : l = l.take m ++ l.drop m := (List.take_append_drop m l).symm
        calc l = l.take m ++ l.drop m := hl
          _ = l.take m ++ ('.' :: (ds ++ rest)) := by rw [hsplit]
          _ = (l.take m ++ '.' :: ds) ++ rest := by simp
      · intro c hc
        rcases List.mem_append.mp hc with hc | hc
        · exact no_space_of_digComma (take_mem_of_le_maxRun hm2 c hc)
        rcases List.mem_cons.mp hc with rfl | hc
        · decide
        · exact no_space_of_digit (hds c hc)

/-- A successful ROW_RX match always consumed at least one whitespace
character from the line. -/
theorem rowMatch_some_has_space {l : Text} {x : RowCaps} (h : rowMatch l = some x) :
    ∃ c ∈ l, isPySpace c = true := by
  obtain ⟨m, hm1, hm2, hk⟩ := plusGreedy_eq_some h
  have hk2 : plusGreedy isPySpace (l.drop m)
      (fun _ rest =>
        dotStarLazy [] rest fun desc r3 =>
        spacePlus r3 fun r4 =>
        tryRange r4 1 (min 4 (maxRun isUpAl r4)) fun sc r5 =>
        spacePlus r5 fun r6 =>
        charC isUpper r6 fun u r7 =>
        spacePlus r7 fun r8 =>
        numTok r8 fun q r9 =>
        spacePlus r9 fun r10 =>
        numTok r10 fun rt r11 =>
        spacePlus r11 fun r12 =>
        numTok r12 fun ch r13 =>
        spacePlus r13 fun r14 =>
        numTok r14 fun tx r15 =>
        spacePlus r15 fun r16 =>
        numTok r16 fun tt r17 =>
        endAnchor ⟨l.take m, desc, sc, [u], q, rt, ch, tx, tt⟩ r17) = some x := hk
  obtain ⟨m2, hm21, hm22, _⟩ := plusGreedy_eq_some hk2
  obtain ⟨c, r, hdrop, hc⟩ :=
    head_sat_of_maxRun_pos isPySpace (l.drop m) (by omega)
  refine ⟨c, ?_, hc⟩
  have : c ∈ l.drop m := by rw [hdrop]; exact List.mem_cons_self c r
  exact List.mem_of_mem_drop this

/-- C9: a line whose normalized text is a single numeric token (ONLY_NUM_RX)
contains no whitespace, while every ROW_RX match requires some; so the loop
body of parse_detail_table emits no row for such a line. -/
theorem C9_numeric_token_line_emits_no_row (m : Meta) (line : Text)
    (h : onlyNumTok (normL line) = true) :
    rowsOfLine m line = [] := by
  obtain ⟨u, hu⟩ : ∃ u, (numTok (normL line) fun _ rest =>
      if rest = [] then some () else none) = some u := by
    unfold onlyNumTok at h
    cases he : (numTok (normL line) fun _ rest => if rest = [] then some () else none)
    · rw [he] at h; simp [Option.isSome] at h
    · exact ⟨_, rfl⟩
  obtain ⟨pre, rest, hsplit, hpre, hk⟩ := numTok_eq_some_no_space hu
  have hrest : rest = [] := by
    by_contra hne
    simp [hne] at hk
  subst hrest
  have hnospace : ∀ c ∈ normL line, isPySpace c = false := by
    intro c hc
    rw [hsplit] at hc
    simp at hc
    exact hpre c hc
  have hnone : rowMatch (normL line) = none := by
    cases hr : rowMatch (normL line)
    · rfl
    · exfalso
      obtain ⟨c, hcm, hcsp⟩ := rowMatch_some_has_space hr
      have := hnospace c hcm
      rw [this] at hcsp
      cases hcsp
  simp only [rowsOfLine, hnone]

/-- C9 witness: the spec's subtotal example line. -/
theorem C9_numeric_token_line_emits_no_row_witness :
    onlyNumTok (normL "1234.56".toList) = true ∧
    rowsOfLine ⟨none, none, none⟩ "1234.56".toList = [] :=
  ⟨by decide, C9_numeric_token_line_emits_no_row ⟨none, none, none⟩ "1234.56".toList (by decide)⟩

/-! ## Lemmas about the normalizer, for C8 -/

theorem wordsF_nil : ∀ f, wordsF f [] = [] := by
  intro f; cases f <;> rfl

theorem wordsF_cons_space {f : Nat} {c : Char} {t : Text} (hc : isPySpace c = true) :
    wordsF (f + 1) (c :: t) = wordsF f t := by
  simp [wordsF, hc]

theorem wordsF_cons_word {f : Nat} {c : Char} {t : Text} (hc : isPySpace c = false) :
    wordsF (f + 1) (c :: t) =
      (c :: t.takeWhile fun d => !isPySpace d) ::
        wordsF f (t.dropWhile fun d => !isPySpace d) := by
  simp [wordsF, hc]

/-- The word splitter ignores the fuel as soon as it dominates the length. -/
theorem wordsF_congr : ∀ {f f' : Nat} {l : Text},
    l.length ≤ f → l.length ≤ f' → wordsF f l = wordsF f' l := by
  intro f
  induction f with
  | zero =>
    intro f' l h _
    have : l = [] := List.eq_nil_of_length_eq_zero (by omega)
    subst this
    rw [wordsF_nil, wordsF_nil]
  | succ f ih =>
    intro f' l h h'
    cases l with
    | nil => rw [wordsF_nil, wordsF_nil]
    | cons c r =>
      cases f' with
      | zero => simp at h'
      | succ f' =>
        by_cases hc : isPySpace c
        · rw [wordsF_cons_space hc, wordsF_cons_space hc]
          exact ih (by simpa using h) (by simpa using h')
        · rw [wordsF_cons_word (by simpa using hc), wordsF_cons_word (by simpa using hc)]
          have hd := length_dropWhile_le (fun d => !isPySpace d) r
          have : wordsF f (r.dropWhile fun d => !isPySpace d) =
              wordsF f' (r.dropWhile fun d => !isPySpace d) := by
            apply ih
            · simp at h; omega
            · simp at h'; omega
          rw [this]

theorem wordsWS_eq_wordsF {f : Nat} {l : Text} (h : l.length ≤ f) :
    wordsWS l = wordsF f l :=
  wordsF_congr (Nat.le_refl _) h

/-- Leading whitespace is dropped by the splitter. -/
theorem wordsWS_ws_append {ws l : Text} (h : ∀ c ∈ ws, isPySpace c = true) :
    wordsWS (ws ++ l) = wordsWS l := by
  induction ws with
  | nil => simp
  | cons c ws ih =>
    have hc : isPySpace c = true := h c (List.mem_cons_self c ws)
    calc wordsWS (c :: ws ++ l)
        = wordsF ((ws ++ l).length + 1) (c :: (ws ++ l)) := by
          simp [wordsWS, List.length_cons]
      _ = wordsF ((ws ++ l).length) (ws ++ l) := wordsF_cons_space hc
      _ = wordsWS (ws ++ l) := (wordsWS_eq_wordsF (Nat.le_refl _)).symm
      _ = wordsWS l := ih fun d hd => h d (List.mem_cons_of_mem c hd)

theorem takeWhile_append_of_stop {p : Char → Bool} :
    ∀ {w r : Text}, (∀ c ∈ w, p c = true) →
      (r = [] ∨ ∃ d r2, r = d :: r2 ∧ p d = false) →
      (w ++ r).takeWhile p = w ∧ (w ++ r).dropWhile p = r := by
  intro w
  induction w with
  | nil =>
    intro r _ hr
    rcases hr with rfl | ⟨d, r2, rfl, hd⟩
    · simp
    · simp [List.takeWhile_cons, List.dropWhile_cons, hd]
  | cons c w ih =>
    intro r hw hr
    have hc : p c = true := hw c (List.mem_cons_self c w)
    have := ih (fun d hd => hw d (List.mem_cons_of_mem c hd)) hr
    simp [List.takeWhile_cons, List.dropWhile_cons, hc, this.1, this.2]

/-- A leading whitespace-free word followed by nothing or whitespace is split
off whole. -/
theorem wordsWS_word_append {w r : Text} (hw : w ≠ [])
    (hnw : ∀ c ∈ w, isPySpace c = false)
    (hr : r = [] ∨ ∃ d r2, r = d :: r2 ∧ isPySpace d = true) :
    wordsWS (w ++ r) = w :: wordsWS r := by
  cases w with
  | nil => cases hw rfl
  | cons c w' =>
    have hc : isPySpace c = false := hnw c (List.mem_cons_self c w')
    have hstop : (w' ++ r).takeWhile (fun d => !isPySpace d) = w' ∧
        (w' ++ r).dropWhile (fun d => !isPySpace d) = r := by
      apply takeWhile_append_of_stop
      · intro d hd
        simp [hnw d (List.mem_cons_of_mem c hd)]
      · rcases hr with rfl | ⟨d, r2, rfl, hd⟩
        · exact Or.inl rfl
        · exact Or.inr ⟨d, r2, rfl, by simp [hd]⟩
    calc wordsWS (c :: w' ++ r)
        = wordsF ((w' ++ r).length + 1) (c :: (w' ++ r)) := by
          simp [wordsWS, List.length_cons]
      _ = (c :: (w' ++ r).takeWhile fun d => !isPySpace d) ::
            wordsF ((w' ++ r).length) ((w' ++ r).dropWhile fun d => !isPySpace d) :=
          wordsF_cons_word hc
      _ = (c :: w') :: wordsF ((w' ++ r).length) r := by rw [hstop.1, hstop.2]
      _ = (c :: w') :: wordsWS r := by
          rw [← wordsWS_eq_wordsF (by simp)]

/-- Every split word is nonempty and free of whitespace. -/
theorem wordsWS_props : ∀ {f : Nat} {l : Text}, ∀ w ∈ wordsF f l,
    w ≠ [] ∧ ∀ c ∈ w, isPySpace c = false := by
  intro f
  induction f with
  | zero => intro l w hw; rw [wordsF] at hw; cases hw
  | succ f ih =>
    intro l w hw
    cases l with
    | nil => rw [wordsF_nil] at hw; cases hw
    | cons c r =>
      by_cases hc : isPySpace c
      · rw [wordsF_cons_space hc] at hw
        exact ih w hw
      · rw [wordsF_cons_word (by simpa using hc)] at hw
        rcases List.mem_cons.mp hw with rfl | hw
        · refine ⟨by simp, ?_⟩
          intro d hd
          rcases List.mem_cons.mp hd with rfl | hd
          · simpa using hc
          · have := List.mem_takeWhile_imp hd
            simpa using this
        · exact ih w hw

theorem wordsWS_props2 {l : Text} : ∀ w ∈ wordsWS l,
    w ≠ [] ∧ ∀ c ∈ w, isPySpace c = false :=
  fun w hw => wordsWS_props w hw

/-- Membership in a space-joined word list. -/
theorem mem_joinSp : ∀ {ws : List Text} {c : Char}, c ∈ joinSp ws →
    c = ' ' ∨ ∃ w ∈ ws, c ∈ w := by
  intro ws
  induction ws with
  | nil => intro c hc; cases hc
  | cons w ws ih =>
    intro c hc
    cases ws with
    | nil =>
      right; exact ⟨w, List.mem_cons_self w [], by simpa [joinSp] using hc⟩
    | cons w2 ws2 =>
      rw [show joinSp (w :: w2 :: ws2) = w ++ ' ' :: joinSp (w2 :: ws2) from rfl] at hc
      rcases List.mem_append.mp hc with hc | hc
      · right; exact ⟨w, List.mem_cons_self w _, hc⟩
      rcases List.mem_cons.mp hc with rfl | hc
      · exact Or.inl rfl
      rcases ih hc with h | ⟨w3, hw3, hc3⟩
      · exact Or.inl h
      · exact Or.inr ⟨w3, List.mem_cons_of_mem w hw3, hc3⟩

/-- Splitting a space-joined list of nonempty whitespace-free words gives the
list back. -/
theorem wordsWS_joinSp : ∀ {ws : List Text},
    (∀ w ∈ ws, w ≠ [] ∧ ∀ c ∈ w, isPySpace c = false) →
    wordsWS (joinSp ws) = ws := by
  intro ws
  induction ws with
  | nil => intro _; rfl
  | cons w ws ih =>
    intro h
    have hw := h w (List.mem_cons_self w ws)
    cases ws with
    | nil =>
      show wordsWS (joinSp [w]) = [w]
      have : joinSp [w] = w ++ [] := by simp [joinSp]
      rw [this, wordsWS_word_append hw.1 hw.2 (Or.inl rfl)]
      rfl
    | cons w2 ws2 =>
      have hjoin : joinSp (w :: w2 :: ws2) = w ++ ' ' :: joinSp (w2 :: ws2) := rfl
      rw [hjoin, wordsWS_word_append hw.1 hw.2 (Or.inr ⟨' ', _, rfl, by decide⟩)]
      have : wordsWS (' ' :: joinSp (w2 :: ws2)) = wordsWS (joinSp (w2 :: ws2)) := by
        have h2 : wordsWS ([' '] ++ joinSp (w2 :: ws2)) = wordsWS (joinSp (w2 :: ws2)) :=
          wordsWS_ws_append (by intro c hc; simp at hc; subst hc; decide)
        simpa using h2
      rw [this, ih fun u hu => h u (List.mem_cons_of_mem w hu)]

/-- Texts without non-breaking spaces are fixed by the replacement. -/
theorem cleanNbsp_id_of_no_nbsp {l : Text} (h : ∀ c ∈ l, c ≠ '\xa0') :
    cleanNbsp l = l := by
  induction l with
  | nil => rfl
  | cons c r ih =>
    have hc := h c (List.mem_cons_self c r)
    simp only [cleanNbsp, List.map_cons, if_neg hc]
    have := ih fun d hd => h d (List.mem_cons_of_mem c hd)
    simpa [cleanNbsp] using this

/-- Normalized output never contains a non-breaking space. -/
theorem normL_no_nbsp {l : Text} : ∀ c ∈ normL l, c ≠ '\xa0' := by
  intro c hc
  rcases mem_joinSp hc with rfl | ⟨w, hw, hcw⟩
  · decide
  · have := (wordsWS_props w hw).2 c hcw
    intro he
    subst he
    simp [isPySpace] at this

theorem normL_idem (l : Text) : normL (normL l) = normL l := by
  have hclean : cleanNbsp (normL l) = normL l :=
    cleanNbsp_id_of_no_nbsp normL_no_nbsp
  show joinSp (wordsWS (cleanNbsp (normL l))) = normL l
  rw [hclean]
  show joinSp (wordsWS (joinSp (wordsWS (cleanNbsp l)))) = normL l
  rw [wordsWS_joinSp wordsWS_props2]
  rfl

/-- A text assembled from leading whitespace and a sequence of (word,
trailing whitespace) blocks; all whitespace layout of a token sequence has
this shape. -/
def assembleWS : Text → List (Text × Text) → Text
  | lead, [] => lead
  | lead, (w, sep) :: rest => lead ++ w ++ assembleWS sep rest

/-- Wellformedness of the blocks: words are nonempty and whitespace-free,
separators are whitespace, and only the last separator may be empty. -/
def okParts : List (Text × Text) → Bool
  | [] => true
  | (w, sep) :: rest =>
    !w.isEmpty && w.all (fun c => !isPySpace c) && sep.all isPySpace &&
      (rest.isEmpty || !sep.isEmpty) && okParts rest

theorem wordsWS_assembleWS : ∀ {parts : List (Text × Text)} {lead : Text},
    (∀ c ∈ lead, isPySpace c = true) → okParts parts = true →
    wordsWS (assembleWS lead parts) = parts.map Prod.fst := by
  intro parts
  induction parts with
  | nil =>
    intro lead hlead _
    show wordsWS lead = []
    calc wordsWS lead = wordsWS (lead ++ []) := by simp
      _ = wordsWS [] := wordsWS_ws_append hlead
      _ = [] := rfl
  | cons pr rest ih =>
    obtain ⟨w, sep⟩ := pr
    intro lead hlead hok
    simp only [okParts, Bool.and_eq_true, List.all_eq_true, Bool.or_eq_true,
      Bool.not_eq_true', List.isEmpty_eq_true] at hok
    obtain ⟨⟨⟨⟨hwne, hwall⟩, hsepall⟩, hlast⟩, hrest⟩ := hok
    have hhead : assembleWS sep rest = [] ∨
        ∃ d r2, assembleWS sep rest = d :: r2 ∧ isPySpace d = true := by
      cases rest with
      | nil =>
        cases hsep : sep with
        | nil => exact Or.inl (by simp [assembleWS, hsep])
        | cons d s2 =>
          refine Or.inr ⟨d, s2, by simp [assembleWS, hsep], ?_⟩
          exact hsepall d (by rw [hsep]; exact List.mem_cons_self d s2)
      | cons pr2 rest2 =>
        obtain ⟨w2, sep2⟩ := pr2
        have hsne : sep ≠ [] := by
          rcases hlast with h | h
          · cases h
          · exact List.isEmpty_eq_false.mp h
        cases hsep : sep with
        | nil => exact absurd hsep hsne
        | cons d s2 =>
          refine Or.inr ⟨d, s2 ++ (w2 ++ assembleWS sep2 rest2), ?_, ?_⟩
          · simp [assembleWS, hsep]
          · exact hsepall d (by rw [hsep]; exact List.mem_cons_self d s2)
    have hassm : assembleWS lead ((w, sep) :: rest) = lead ++ (w ++ assembleWS sep rest) := by
      simp [assembleWS]
    rw [hassm, wordsWS_ws_append hlead,
      wordsWS_word_append (List.isEmpty_eq_false.mp hwne)
        (fun c hc => by simpa using hwall c hc) hhead,
      ih hsepall hrest]
    rfl

theorem okParts_mem : ∀ {parts : List (Text × Text)}, okParts parts = true →
    ∀ pr ∈ parts, (∀ c ∈ pr.1, isPySpace c = false) ∧ ∀ c ∈ pr.2, isPySpace c = true := by
  intro parts
  induction parts with
  | nil => intro _ pr hpr; cases hpr
  | cons q rest ih =>
    obtain ⟨w, sep⟩ := q
    intro hok pr hpr
    simp only [okParts, Bool.and_eq_true, List.all_eq_true] at hok
    obtain ⟨⟨⟨⟨_, hwall⟩, hsepall⟩, _⟩, hrest⟩ := hok
    rcases List.mem_cons.mp hpr with rfl | hpr
    · exact ⟨fun c hc => by simpa using hwall c hc, hsepall⟩
    · exact ih hrest pr hpr

theorem cleanNbsp_append (a b : Text) :
    cleanNbsp (a ++ b) = cleanNbsp a ++ cleanNbsp b := by
  simp [cleanNbsp]

theorem cleanNbsp_assembleWS : ∀ (parts : List (Text × Text)) (lead : Text),
    cleanNbsp (assembleWS lead parts) =
      assembleWS (cleanNbsp lead) (parts.map fun pr => (cleanNbsp pr.1, cleanNbsp pr.2)) := by
  intro parts
  induction parts with
  | nil => intro lead; rfl
  | cons q rest ih =>
    obtain ⟨w, sep⟩ := q
    intro lead
    have hassm : assembleWS lead ((w, sep) :: rest) = lead ++ (w ++ assembleWS sep rest) := by
      simp [assembleWS]
    rw [hassm, cleanNbsp_append, cleanNbsp_append, ih sep]
    simp [assembleWS]

theorem isPySpace_cleanChar {c : Char} :
    isPySpace (if c = '\xa0' then ' ' else c) = isPySpace c := by
  by_cases hc : c = '\xa0'
  · subst hc; simp [isPySpace]
  · simp [hc]

theorem okParts_clean : ∀ {parts : List (Text × Text)}, okParts parts = true →
    okParts (parts.map fun pr => (cleanNbsp pr.1, cleanNbsp pr.2)) = true := by
  intro parts
  induction parts with
  | nil => intro _; rfl
  | cons q rest ih =>
    obtain ⟨w, sep⟩ := q
    intro hok
    simp only [okParts, Bool.and_eq_true, List.all_eq_true] at hok
    obtain ⟨⟨⟨⟨hwne, hwall⟩, hsepall⟩, hlast⟩, hrest⟩ := hok
    simp only [List.map_cons, okParts, Bool.and_eq_true, List.all_eq_true]
    refine ⟨⟨⟨⟨?_, ?_⟩, ?_⟩, ?_⟩, ih hrest⟩
    · cases w <;> simp_all [cleanNbsp]
    · intro c hc
      obtain ⟨d, hd, rfl⟩ := List.mem_map.mp hc
      rw [Bool.not_eq_true', isPySpace_cleanChar]
      simpa using hwall d hd
    · intro c hc
      obtain ⟨d, hd, rfl⟩ := List.mem_map.mp hc
      rw [isPySpace_cleanChar]
      exact hsepall d hd
    · have hmap : (rest.map fun pr => (cleanNbsp pr.1, cleanNbsp pr.2)).isEmpty = rest.isEmpty := by
        cases rest <;> rfl
      have hsep2 : (cleanNbsp sep).isEmpty = sep.isEmpty := by
        cases sep <;> rfl
      rw [hmap, hsep2]
      exact hlast

/-- Normalizing any whitespace assembly of a token sequence yields the
space-joined tokens, independently of the whitespace layout. -/
theorem normL_assembleWS {lead : Text} {parts : List (Text × Text)}
    (hlead : ∀ c ∈ lead, isPySpace c = true) (hok : okParts parts = true) :
    normL (assembleWS lead parts) = joinSp (parts.map Prod.fst) := by
  show joinSp (wordsWS (cleanNbsp (assembleWS lead parts))) = _
  rw [cleanNbsp_assembleWS]
  rw [wordsWS_assembleWS ?hl (okParts_clean hok)]
  case hl =>
    intro c hc
    obtain ⟨d, hd, rfl⟩ := List.mem_map.mp hc
    rw [isPySpace_cleanChar]
    exact hlead d hd
  congr 1
  rw [List.map_map]
  apply List.map_congr_left
  intro pr hpr
  show cleanNbsp pr.1 = pr.1
  apply cleanNbsp_id_of_no_nbsp
  intro c hc he
  have := (okParts_mem hok pr hpr).1 c hc
  rw [he] at this
  simp [isPySpace] at this

/-- C8: the normalizer is total by construction, idempotent, and its output
depends only on the whitespace-free token sequence: two inputs assembled from
the same tokens with arbitrary whitespace (non-breaking spaces included) in
arbitrary amounts normalize identically. -/
theorem C8_norm_idempotent_and_whitespace_invariant :
    (∀ l : Text, normL (normL l) = normL l) ∧
    (∀ lead parts lead2 parts2,
      (∀ c ∈ lead, isPySpace c = true) → (∀ c ∈ lead2, isPySpace c = true) →
      okParts parts = true → okParts parts2 = true →
      parts.map Prod.fst = parts2.map Prod.fst →
      normL (assembleWS lead parts) = normL (assembleWS lead2 parts2)) := by
  refine ⟨normL_idem, ?_⟩
  intro lead parts lead2 parts2 h1 h2 h3 h4 h5
  rw [normL_assembleWS h1 h3, normL_assembleWS h2 h4, h5]

/-- C8 witness: two layouts of the tokens ab, cd with spaces, tabs and a
non-breaking space normalize to the same text, and idempotence at a concrete
input. -/
theorem C8_norm_idempotent_and_whitespace_invariant_witness :
    normL (assembleWS "  ".toList [("ab".toList, ['\t', '\xa0']), ("cd".toList, [' '])]) =
      normL (assembleWS [] [("ab".toList, [' ']), ("cd".toList, [])]) ∧
    normL (normL "  ab\t\xa0cd ".toList) = normL "  ab\t\xa0cd ".toList :=
  ⟨C8_norm_idempotent_and_whitespace_invariant.2
      "  ".toList [("ab".toList, ['\t', '\xa0']), ("cd".toList, [' '])]
      [] [("ab".toList, [' ']), ("cd".toList, [])]
      (by decide) (by decide) (by decide) (by decide) (by decide),
   C8_norm_idempotent_and_whitespace_invariant.1 "  ab\t\xa0cd ".toList⟩

/-- C7 counterexample: with the nonempty candidate list containing only a
completely dissimilar candidate, every candidate scores zero and fuzzy_best
returns (none, 0) instead of the earliest maximal-score candidate, refuting
the claim that for every nonempty candidate sequence the earliest candidate
achieving the maximal score is returned. -/
theorem C7_all_zero_scores_returns_none :
    fuzzy_best "a".toList ["b".toList] = (none, 0) ∧
    (["b".toList] : List Text) ≠ [] ∧
    simOf (lowerT (normL "a".toList)) "b".toList = 0 :=
  ⟨by decide, by decide, by decide⟩

/-! ## Score bounds and the loop invariant of fuzzy_best, for C7 -/

theorem commonLen_le_left : ∀ (a b : Text), commonLen a b ≤ a.length := by
  intro a
  induction a with
  | nil => intro b; cases b <;> simp [commonLen]
  | cons x xs ih =>
    intro b
    cases b with
    | nil => simp [commonLen]
    | cons y ys =>
      by_cases hxy : x = y
      · simpa [commonLen, hxy] using ih ys
      · simp [commonLen, hxy]

theorem commonLen_le_right : ∀ (a b : Text), commonLen a b ≤ b.length := by
  intro a
  induction a with
  | nil => intro b; cases b <;> simp [commonLen]
  | cons x xs ih =>
    intro b
    cases b with
    | nil => simp [commonLen]
    | cons y ys =>
      by_cases hxy : x = y
      · simpa [commonLen, hxy] using ih ys
      · simp [commonLen, hxy]

theorem foldl_preserve {β γ : Type} (P : γ → Prop) {f : γ → β → γ}
    (hstep : ∀ acc x, P acc → P (f acc x)) :
    ∀ (l : List β) (init : γ), P init → P (l.foldl f init) := by
  intro l
  induction l with
  | nil => intro init h; exact h
  | cons x xs ih => intro init h; exact ih _ (hstep _ _ h)

theorem lcsBest_bound (a b : Text) :
    (lcsBest a b).2.2 ≤ a.length - (lcsBest a b).1 ∧
      (lcsBest a b).2.2 ≤ b.length - (lcsBest a b).2.1 := by
  unfold lcsBest
  apply foldl_preserve
    (fun t : Nat × Nat × Nat => t.2.2 ≤ a.length - t.1 ∧ t.2.2 ≤ b.length - t.2.1)
  · intro acc i hacc
    apply foldl_preserve
      (fun t : Nat × Nat × Nat => t.2.2 ≤ a.length - t.1 ∧ t.2.2 ≤ b.length - t.2.1)
    · intro acc2 j hacc2
      dsimp only
      split
      · constructor
        · simpa using commonLen_le_left (a.drop i) (b.drop j)
        · simpa using commonLen_le_right (a.drop i) (b.drop j)
      · exact hacc2
    · exact hacc
  · exact ⟨by simp, by simp⟩

theorem matchTotalF_le : ∀ (fuel : Nat) (a b : Text),
    matchTotalF fuel a b ≤ a.length ∧ matchTotalF fuel a b ≤ b.length := by
  intro fuel
  induction fuel with
  | zero => intro a b; simp [matchTotalF]
  | succ fuel ih =>
    intro a b
    have hb := lcsBest_bound a b
    rcases hl : lcsBest a b with ⟨i, j, kl⟩
    rw [hl] at hb
    simp only at hb
    have he : matchTotalF (fuel + 1) a b =
        if kl = 0 then 0
        else matchTotalF fuel (a.take i) (b.take j) + kl +
          matchTotalF fuel (a.drop (i + kl)) (b.drop (j + kl)) := by
      simp only [matchTotalF]
      rw [hl]
    by_cases hkl : kl = 0
    · rw [he, if_pos hkl]; simp
    · rw [he, if_neg hkl]
      have h1 := ih (a.take i) (b.take j)
      have h2 := ih (a.drop (i + kl)) (b.drop (j + kl))
      simp only [List.length_take, List.length_drop] at h1 h2
      constructor <;> omega

theorem matchTotal_le (a b : Text) :
    matchTotal a b ≤ a.length ∧ matchTotal a b ≤ b.length :=
  matchTotalF_le (a.length + b.length) a b

theorem ratioSM_nonneg (a b : Text) : 0 ≤ ratioSM a b := by
  unfold ratioSM
  split
  · norm_num
  · rw [Rat.mkRat_eq_div]
    positivity

theorem ratioSM_le_one (a b : Text) : ratioSM a b ≤ 1 := by
  unfold ratioSM
  split
  · norm_num
  next h =>
    rw [Rat.mkRat_eq_div]
    rw [div_le_one (by positivity)]
    have hm := matchTotal_le a b
    have : 2 * matchTotal a b ≤ a.length + b.length := by omega
    exact_mod_cast this

/-- The loop invariant of fuzzy_best: the final score dominates the running
score and every processed candidate's score, and the final state is either
the starting accumulator untouched or names a candidate whose score is the
final one, strictly improves on the start, and strictly dominates everything
listed before it. -/
theorem fuzzyGo_spec (sn : Text) : ∀ (cs : List Text) (best : Option Text) (score : ℚ),
    score ≤ (fuzzyGo sn cs (best, score)).2 ∧
    (∀ c ∈ cs, simOf sn c ≤ (fuzzyGo sn cs (best, score)).2) ∧
    (fuzzyGo sn cs (best, score) = (best, score) ∨
      ∃ pre b suf, cs = pre ++ b :: suf ∧
        (fuzzyGo sn cs (best, score)).1 = some b ∧
        (fuzzyGo sn cs (best, score)).2 = simOf sn b ∧
        score < simOf sn b ∧
        ∀ c ∈ pre, simOf sn c < simOf sn b) := by
  intro cs
  induction cs with
  | nil =>
    intro best score
    refine ⟨le_refl _, ?_, Or.inl rfl⟩
    intro c hc; cases hc
  | cons c cs ih =>
    intro best score
    by_cases hgt : simOf sn c > score
    · have hstep : fuzzyGo sn (c :: cs) (best, score) = fuzzyGo sn cs (some c, simOf sn c) := by
        simp [fuzzyGo, hgt]
      obtain ⟨ih1, ih2, ih3⟩ := ih (some c) (simOf sn c)
      rw [hstep]
      refine ⟨le_of_lt (lt_of_lt_of_le hgt ih1), ?_, ?_⟩
      · intro d hd
        rcases List.mem_cons.mp hd with rfl | hd
        · exact ih1
        · exact ih2 d hd
      · rcases ih3 with heq | ⟨pre, b, suf, hsplit, h1, h2, h3, h4⟩
        · refine Or.inr ⟨[], c, cs, by simp, ?_, ?_, hgt, ?_⟩
          · rw [heq]
          · rw [heq]
          · intro d hd; cases hd
        · refine Or.inr ⟨c :: pre, b, suf, by simp [hsplit], h1, h2,
            lt_trans hgt h3, ?_⟩
          intro d hd
          rcases List.mem_cons.mp hd with rfl | hd
          · exact h3
          · exact h4 d hd
    · have hstep : fuzzyGo sn (c :: cs) (best, score) = fuzzyGo sn cs (best, score) := by
        simp [fuzzyGo, hgt]
      obtain ⟨ih1, ih2, ih3⟩ := ih best score
      rw [hstep]
      refine ⟨ih1, ?_, ?_⟩
      · intro d hd
        rcases List.mem_cons.mp hd with rfl | hd
        · exact le_trans (not_lt.mp hgt) ih1
        · exact ih2 d hd
      · rcases ih3 with heq | ⟨pre, b, suf, hsplit, h1, h2, h3, h4⟩
        · exact Or.inl heq
        · refine Or.inr ⟨c :: pre, b, suf, by simp [hsplit], h1, h2, h3, ?_⟩
          intro d hd
          rcases List.mem_cons.mp hd with rfl | hd
          · exact lt_of_le_of_lt (not_lt.mp hgt) h3
          · exact h4 d hd

/-- C7 amended: fuzzy_best returns (none, 0) on an empty candidate list and
whenever every candidate scores zero; otherwise it returns the earliest
candidate achieving the maximal score; the returned score always lies in the
unit interval. -/
theorem C7_fuzzy_best_first_maximal (s : Text) (cands : List Text) :
    (0 ≤ (fuzzy_best s cands).2 ∧ (fuzzy_best s cands).2 ≤ 1) ∧
    ((∀ c ∈ cands, simOf (lowerT (normL s)) c = 0) → fuzzy_best s cands = (none, 0)) ∧
    (∀ b, (fuzzy_best s cands).1 = some b →
      ∃ pre suf, cands = pre ++ b :: suf ∧
        (fuzzy_best s cands).2 = simOf (lowerT (normL s)) b ∧
        0 < (fuzzy_best s cands).2 ∧
        (∀ c ∈ cands, simOf (lowerT (normL s)) c ≤ (fuzzy_best s cands).2) ∧
        ∀ c ∈ pre, simOf (lowerT (normL s)) c < (fuzzy_best s cands).2) := by
  obtain ⟨h1, h2, h3⟩ := fuzzyGo_spec (lowerT (normL s)) cands none 0
  have hfb : fuzzy_best s cands = fuzzyGo (lowerT (normL s)) cands (none, 0) := rfl
  refine ⟨⟨by rw [hfb]; exact h1, ?_⟩, ?_, ?_⟩
  · rcases h3 with heq | ⟨pre, b, suf, hsplit, hb1, hb2, hb3, hb4⟩
    · rw [hfb, heq]; norm_num
    · rw [hfb, hb2]
      exact ratioSM_le_one _ _
  · intro hall
    rcases h3 with heq | ⟨pre, b, suf, hsplit, hb1, hb2, hb3, hb4⟩
    · rw [hfb, heq]
    · exfalso
      have := hall b (by rw [hsplit]; exact List.mem_append_right pre (List.mem_cons_self b suf))
      rw [this] at hb3
      exact absurd hb3 (lt_irrefl 0)
  · intro b hb
    rcases h3 with heq | ⟨pre, b2, suf, hsplit, hb1, hb2, hb3, hb4⟩
    · rw [hfb, heq] at hb; cases hb
    · rw [hfb] at hb
      have hbb : b2 = b := by
        rw [hb1] at hb
        exact Option.some.inj hb
      subst hbb
      refine ⟨pre, suf, hsplit, by rw [hfb]; exact hb2, ?_, ?_, ?_⟩
      · rw [hfb, hb2]; exact lt_of_le_of_lt (le_refl 0) hb3
      · intro c hc
        rw [hfb]
        exact h2 c hc
      · intro c hc
        rw [hfb, hb2]
        exact hb4 c hc

/-- C7 witness: the amended theorem at concrete inputs: unit-interval bounds
and the selected first exact match for query ab among candidates ab, cd, and
the all-zero-scores case for query a among candidate b. -/
theorem C7_fuzzy_best_first_maximal_witness :
    (0 ≤ (fuzzy_best "ab".toList ["ab".toList, "cd".toList]).2 ∧
      (fuzzy_best "ab".toList ["ab".toList, "cd".toList]).2 ≤ 1) ∧
    fuzzy_best "ab".toList ["ab".toList, "cd".toList] = (some "ab".toList, 1) ∧
    fuzzy_best "a".toList ["b".toList] = (none, 0) :=
  ⟨(C7_fuzzy_best_first_maximal "ab".toList ["ab".toList, "cd".toList]).1,
   by decide,
   (C7_fuzzy_best_first_maximal "a".toList ["b".toList]).2.1 (by decide)⟩

/-! ## What the field patterns must consume, for C3

Every match attempt of the invoice-number patterns requires a digit, the
billing-date pattern requires a digit, and the currency pattern requires a
colon; none of these characters can occur in a paragraph whose normalized
text is exactly the word invoice. -/

theorem searchPos_eq_some {f : Text → Option α} :
    ∀ {l : Text} {x : α}, searchPos f l = some x → ∃ r, r <:+ l ∧ f r = some x := by
  intro l
  induction l with
  | nil => intro x h; exact ⟨[], List.nil_suffix, h⟩
  | cons c r ih =>
    intro x h
    rcases hOrElse_eq_some h with h1 | h1
    · exact ⟨c :: r, List.suffix_refl _, h1⟩
    · obtain ⟨r2, hs, hf⟩ := ih h1
      exact ⟨r2, hs.trans (List.suffix_cons c r), hf⟩

theorem litCI_eq_some {x : α} : ∀ {s l : Text} {k : Text → Option α},
    litCI s l k = some x → ∃ r, r <:+ l ∧ k r = some x := by
  intro s
  induction s with
  | nil => intro l k h; exact ⟨l, List.suffix_refl _, h⟩
  | cons c cs ih =>
    intro l k h
    cases l with
    | nil => cases h
    | cons d ds =>
      rw [litCI] at h
      split at h
      · obtain ⟨r, hs, hf⟩ := ih h
        exact ⟨r, hs.trans (List.suffix_cons d ds), hf⟩
      · cases h

theorem starGreedy_eq_some {p : Char → Bool} {l : Text} {k : Text → Text → Option α} {x : α}
    (h : starGreedy p l k = some x) : ∃ r, r <:+ l ∧ ∃ t, k t r = some x := by
  obtain ⟨m, _, _, hk⟩ := tryRange_eq_some h
  exact ⟨l.drop m, List.drop_suffix m l, l.take m, hk⟩

theorem litCh_eq_some {c : Char} {l : Text} {k : Text → Option α} {x : α}
    (h : litCh c l k = some x) : ∃ r, l = c :: r ∧ k r = some x := by
  cases l with
  | nil => cases h
  | cons d r =>
    rw [litCh] at h
    split at h
    next hd => exact ⟨r, by rw [hd], h⟩
    next => cases h

theorem take3_eq_some {p : Char → Bool} {l : Text} {k : Text → Text → Option α} {x : α}
    (h : take3 p l k = some x) :
    ∃ a b c r, l = a :: b :: c :: r ∧ k [a, b, c] r = some x := by
  cases l with
  | nil => cases h
  | cons a l2 =>
    cases l2 with
    | nil => cases h
    | cons b l3 =>
      cases l3 with
      | nil => cases h
      | cons c r =>
        rw [take3] at h
        split at h
        · exact ⟨a, b, c, r, rfl, h⟩
        · cases h

theorem optLabelSym_eq_some {l : Text} {k : Text → Option α} {x : α}
    (h : optLabelSym l k = some x) : ∃ r, r <:+ l ∧ k r = some x := by
  unfold optLabelSym at h
  rcases hOrElse_eq_some h with h1 | h1
  · obtain ⟨r, heq, hk⟩ := litCh_eq_some h1
    exact ⟨r, heq ▸ List.suffix_cons '#' r, hk⟩
  rcases hOrElse_eq_some h1 with h2 | h2
  · obtain ⟨r, hs, hf⟩ := litCI_eq_some h2
    rcases hOrElse_eq_some hf with h3 | h3
    · obtain ⟨r2, heq, hk⟩ := litCh_eq_some h3
      exact ⟨r2, (heq ▸ List.suffix_cons '.' r2 : r2 <:+ r).trans hs, hk⟩
    · exact ⟨r, hs, h3⟩
  rcases hOrElse_eq_some h2 with h3 | h3
  · exact litCI_eq_some h3
  · exact ⟨l, List.suffix_refl _, h3⟩

theorem optColon_eq_some {l : Text} {k : Text → Option α} {x : α}
    (h : optColon l k = some x) : ∃ r, r <:+ l ∧ k r = some x := by
  unfold optColon at h
  rcases hOrElse_eq_some h with h1 | h1
  · obtain ⟨r, heq, hk⟩ := litCh_eq_some h1
    exact ⟨r, heq ▸ List.suffix_cons ':' r, hk⟩
  · exact ⟨l, List.suffix_refl _, h1⟩

theorem capNumber_digit {l : Text} {g : Text} (h : capNumber l = some g) :
    ∃ c ∈ l, c.isDigit = true := by
  cases l with
  | nil => cases h
  | cons c r =>
    rw [capNumber] at h
    split at h
    next hd => exact ⟨c, List.mem_cons_self c r, hd⟩
    next => cases h

theorem capFallback_digit {l : Text} {g : Text} (h : capFallback l = some g) :
    ∃ c ∈ l, c.isDigit = true := by
  cases l with
  | nil => cases h
  | cons c r =>
    rw [capFallback] at h
    split at h
    next hd => exact ⟨c, List.mem_cons_self c r, hd⟩
    next => cases h

theorem invLabelMatchAt_digit {l : Text} {g : Text} (h : invLabelMatchAt l = some g) :
    ∃ c ∈ l, c.isDigit = true := by
  obtain ⟨r1, hs1, h1⟩ := litCI_eq_some h
  obtain ⟨r2, hs2, _, h2⟩ := starGreedy_eq_some h1
  obtain ⟨r3, hs3, h3⟩ := optLabelSym_eq_some h2
  obtain ⟨r4, hs4, _, h4⟩ := starGreedy_eq_some h3
  obtain ⟨r5, hs5, h5⟩ := optColon_eq_some h4
  obtain ⟨r6, hs6, _, h6⟩ := starGreedy_eq_some h5
  obtain ⟨c, hc, hd⟩ := capNumber_digit h6
  refine ⟨c, ?_, hd⟩
  exact (hs6.trans (hs5.trans (hs4.trans (hs3.trans (hs2.trans hs1))))).subset hc

theorem grab_number_none_of_no_digit {t : Text}
    (h : ∀ c ∈ t, c.isDigit = false) : grab_number t = none := by
  have h1 : searchPos invLabelMatchAt t = none := by
    cases he : searchPos invLabelMatchAt t with
    | none => rfl
    | some g =>
      exfalso
      obtain ⟨r, hs, hf⟩ := searchPos_eq_some he
      obtain ⟨c, hc, hd⟩ := invLabelMatchAt_digit hf
      rw [h c (hs.subset hc)] at hd
      cases hd
  have h2 : searchPos capFallback t = none := by
    cases he : searchPos capFallback t with
    | none => rfl
    | some g =>
      exfalso
      obtain ⟨r, hs, hf⟩ := searchPos_eq_some he
      obtain ⟨c, hc, hd⟩ := capFallback_digit hf
      rw [h c (hs.subset hc)] at hd
      cases hd
  unfold grab_number
  rw [h1, h2]

theorem billingMatchAt_digit {l : Text} {g : Text × Text × Text}
    (h : billingMatchAt l = some g) : ∃ c ∈ l, c.isDigit = true := by
  obtain ⟨r1, hs1, h1⟩ := litCI_eq_some h
  obtain ⟨r2, hs2, _, h2⟩ := starGreedy_eq_some h1
  obtain ⟨r3, hs3, h3⟩ := litCI_eq_some h2
  obtain ⟨r4, hs4, _, h4⟩ := starGreedy_eq_some h3
  obtain ⟨r5, hs5, h5⟩ := litCI_eq_some h4
  obtain ⟨r6, hs6, _, h6⟩ := starGreedy_eq_some h5
  have hsix : r6 <:+ l :=
    hs6.trans (hs5.trans (hs4.trans (hs3.trans (hs2.trans hs1))))
  obtain ⟨r7, heq7, h7⟩ := litCh_eq_some h6
  obtain ⟨r8, hs8, _, h8⟩ := starGreedy_eq_some h7
  obtain ⟨a, b, c, r9, heq9, h9⟩ := take3_eq_some h8
  obtain ⟨m, _, _, h10⟩ := plusGreedy_eq_some h9
  obtain ⟨m2, hm21, hm22, _⟩ := tryRange_eq_some h10
  have hday : 1 ≤ maxRun isDigitB (r9.drop m) := by omega
  obtain ⟨d, r11, hr11, hd⟩ := head_sat_of_maxRun_pos _ _ hday
  refine ⟨d, ?_, hd⟩
  have hmem : d ∈ r9.drop m := by rw [hr11]; exact List.mem_cons_self d r11
  have hchain : r9.drop m <:+ l := by
    have c1 : r9.drop m <:+ r9 := List.drop_suffix m r9
    have c2 : r9 <:+ r8 := heq9 ▸ ⟨[a, b, c], rfl⟩
    have c3 : r8 <:+ r7 := hs8
    have c4 : r7 <:+ r6 := heq7 ▸ List.suffix_cons ':' r7
    exact c1.trans (c2.trans (c3.trans (c4.trans hsix)))
  exact hchain.subset hmem

theorem grab_billing_date_none_of_no_digit {t : Text}
    (h : ∀ c ∈ t, c.isDigit = false) : grab_billing_date t = none := by
  have h1 : searchPos billingMatchAt t = none := by
    cases he : searchPos billingMatchAt t with
    | none => rfl
    | some g =>
      exfalso
      obtain ⟨r, hs, hf⟩ := searchPos_eq_some he
      obtain ⟨c, hc, hd⟩ := billingMatchAt_digit hf
      rw [h c (hs.subset hc)] at hd
      cases hd
  unfold grab_billing_date
  rw [h1]

theorem currencyMatchAt_colon {l : Text} {g : Text}
    (h : currencyMatchAt l = some g) : ':' ∈ l := by
  obtain ⟨r1, hs1, h1⟩ := litCI_eq_some h
  obtain ⟨r2, hs2, _, h2⟩ := starGreedy_eq_some h1
  obtain ⟨r3, heq3, _⟩ := litCh_eq_some h2
  apply (hs2.trans hs1).subset
  rw [heq3]
  exact List.mem_cons_self ':' r3

theorem grab_currency_none_of_no_colon {t : Text}
    (h : ':' ∉ t) : grab_currency t = none := by
  have h1 : searchPos currencyMatchAt t = none := by
    cases he : searchPos currencyMatchAt t with
    | none => rfl
    | some g =>
      exfalso
      obtain ⟨r, hs, hf⟩ := searchPos_eq_some he
      exact h (hs.subset (currencyMatchAt_colon hf))
  unfold grab_currency
  rw [h1]
  rfl

/-! ## The anchor paragraph cannot match any field pattern, for C3 -/

theorem anchorIdx_getD : ∀ {ps : List Para} {i : Nat},
    anchorIdx ps = some i → isAnchor (ps.getD i []) = true := by
  intro ps
  induction ps with
  | nil => intro i h; cases h
  | cons p rest ih =>
    intro i h
    rw [anchorIdx] at h
    split at h
    next hp =>
      have : i = 0 := by
        have := Option.some.inj h
        omega
      subst this
      exact hp
    next hp =>
      cases he : anchorIdx rest with
      | none => rw [he] at h; cases h
      | some j =>
        rw [he] at h
        simp only [Option.map_some'] at h
        have hij : j + 1 = i := Option.some.inj h
        rw [← hij]
        simpa [List.getD_cons_succ] using ih he

theorem mem_getText {sep : Text} : ∀ {p : Para} {c : Char},
    c ∈ getText sep p → (∃ f ∈ p, c ∈ f) ∨ c ∈ sep := by
  intro p
  induction p with
  | nil => intro c hc; cases hc
  | cons f rest ih =>
    intro c hc
    cases rest with
    | nil =>
      exact Or.inl ⟨f, List.mem_cons_self f [], by simpa [getText] using hc⟩
    | cons f2 rest2 =>
      have he : getText sep (f :: f2 :: rest2) = f ++ sep ++ getText sep (f2 :: rest2) := by
        simp [getText]
      rw [he] at hc
      rcases List.mem_append.mp hc with hc1 | hc2
      · rcases List.mem_append.mp hc1 with hcf | hcs
        · exact Or.inl ⟨f, List.mem_cons_self f _, hcf⟩
        · exact Or.inr hcs
      · rcases ih hc2 with ⟨f3, hf3, hcf3⟩ | hcs
        · exact Or.inl ⟨f3, List.mem_cons_of_mem f hf3, hcf3⟩
        · exact Or.inr hcs

theorem mem_getText_nil : ∀ {p : Para} {f : Text} {c : Char},
    f ∈ p → c ∈ f → c ∈ getText [] p := by
  intro p
  induction p with
  | nil => intro f c hf _; cases hf
  | cons f0 rest ih =>
    intro f c hf hc
    cases rest with
    | nil =>
      rcases List.mem_cons.mp hf with rfl | hf2
      · simpa [getText] using hc
      · cases hf2
    | cons f2 rest2 =>
      have he : getText [] (f0 :: f2 :: rest2) = f0 ++ [] ++ getText [] (f2 :: rest2) := by
        simp [getText]
      rw [he]
      rcases List.mem_cons.mp hf with rfl | hf2
      · exact List.mem_append.mpr (Or.inl (List.mem_append.mpr (Or.inl hc)))
      · exact List.mem_append.mpr (Or.inr (ih hf2 hc))

theorem mem_words_of_mem : ∀ {fuel : Nat} {l : Text} {c : Char},
    l.length ≤ fuel → c ∈ l → isPySpace c = false →
    ∃ w ∈ wordsF fuel l, c ∈ w := by
  intro fuel
  induction fuel with
  | zero =>
    intro l c hl hc _
    have : l = [] := List.eq_nil_of_length_eq_zero (by omega)
    subst this
    cases hc
  | succ fuel ih =>
    intro l c hl hc hns
    cases l with
    | nil => cases hc
    | cons a r =>
      by_cases ha : isPySpace a
      · rw [wordsF_cons_space ha]
        have hca : c ≠ a := by
          intro he
          rw [he, ha] at hns
          cases hns
        have hcr : c ∈ r := by
          rcases List.mem_cons.mp hc with he | hcr
          · exact absurd he hca
          · exact hcr
        exact ih (by simpa using hl) hcr hns
      · rw [wordsF_cons_word (by simpa using ha)]
        rcases List.mem_cons.mp hc with rfl | hcr
        · exact ⟨c :: r.takeWhile (fun d => !isPySpace d),
            List.mem_cons_self _ _, List.mem_cons_self _ _⟩
        · have hsplit : c ∈ r.takeWhile (fun d => !isPySpace d) ++
              r.dropWhile (fun d => !isPySpace d) := by
            rw [List.takeWhile_append_dropWhile]
            exact hcr
          rcases List.mem_append.mp hsplit with htk | hdp
          · exact ⟨a :: r.takeWhile (fun d => !isPySpace d),
              List.mem_cons_self _ _, List.mem_cons_of_mem a htk⟩
          · have hlen : (r.dropWhile fun d => !isPySpace d).length ≤ fuel := by
              have := length_dropWhile_le (fun d => !isPySpace d) r
              simp only [List.length_cons] at hl
              omega
            obtain ⟨w, hw, hcw⟩ := ih hlen hdp hns
            exact ⟨w, List.mem_cons_of_mem _ hw, hcw⟩

theorem mem_joinSp_of_mem : ∀ {ws : List Text} {w : Text} {c : Char},
    w ∈ ws → c ∈ w → c ∈ joinSp ws := by
  intro ws
  induction ws with
  | nil => intro w c hw _; cases hw
  | cons w0 rest ih =>
    intro w c hw hc
    cases rest with
    | nil =>
      rcases List.mem_cons.mp hw with rfl | hw2
      · simpa [joinSp] using hc
      · cases hw2
    | cons w2 rest2 =>
      have he : joinSp (w0 :: w2 :: rest2) = w0 ++ ' ' :: joinSp (w2 :: rest2) := rfl
      rw [he]
      rcases List.mem_cons.mp hw with rfl | hw2
      · exact List.mem_append.mpr (Or.inl hc)
      · exact List.mem_append.mpr (Or.inr (List.mem_cons_of_mem ' ' (ih hw2 hc)))

theorem toLower_cases (c : Char) : c.toLower = c ∨ (65 ≤ c.toNat ∧ c.toNat ≤ 90) := by
  by_cases h : 65 ≤ c.toNat ∧ c.toNat ≤ 90
  · exact Or.inr h
  · left
    simp [Char.toLower, h]

theorem toNat_le_of_isDigit {c : Char} (h : c.isDigit = true) : c.toNat ≤ 57 := by
  simp only [Char.isDigit, Bool.and_eq_true, decide_eq_true_eq] at h
  exact UInt32.toNat_le_of_le (by norm_num [UInt32.size]) h.2

theorem isPySpace_safe {c : Char} (h : isPySpace c = true) :
    c.isDigit = false ∧ c ≠ ':' := by
  simp only [isPySpace, Bool.or_eq_true, decide_eq_true_eq] at h
  rcases h with ((((((h1 | h1) | h1) | h1) | h1) | h1) | h1) <;> subst h1 <;>
    exact ⟨by decide, by decide⟩

theorem lower_invoice_safe {c : Char}
    (h : c.toLower ∈ (['i', 'n', 'v', 'o', 'i', 'c', 'e'] : Text)) :
    c.isDigit = false ∧ c ≠ ':' := by
  rcases toLower_cases c with hfix | ⟨h65, h90⟩
  · rw [hfix] at h
    simp only [List.mem_cons, List.not_mem_nil, or_false] at h
    rcases h with h1 | h1 | h1 | h1 | h1 | h1 | h1 <;> subst h1 <;>
      exact ⟨by decide, by decide⟩
  · constructor
    · cases hd : c.isDigit
      · rfl
      · have := toNat_le_of_isDigit hd
        omega
    · intro he
      subst he
      exact absurd h65 (by decide)

/-- Every character of the space-joined text of an anchor paragraph is either
whitespace or lowers into the word invoice. -/
theorem anchor_block_mem {p : Para} (h : isAnchor p = true) :
    ∀ c ∈ getText [' '] p,
      isPySpace c = true ∨ c.toLower ∈ (['i', 'n', 'v', 'o', 'i', 'c', 'e'] : Text) := by
  have heq : lowerT (normL (getText [] p)) = "invoice".toList := by
    simpa only [isAnchor, beq_iff_eq] using h
  intro c hc
  rcases mem_getText hc with ⟨f, hf, hcf⟩ | hsep
  · by_cases hws : isPySpace c = true
    · exact Or.inl hws
    · right
      have hns : isPySpace c = false := by
        cases hh : isPySpace c
        · rfl
        · exact absurd hh hws
      have h0 : c ∈ getText [] p := mem_getText_nil hf hcf
      have h1 : c ∈ cleanNbsp (getText [] p) := by
        have hne : c ≠ '\xa0' := by
          intro he
          rw [he] at hns
          simp [isPySpace] at hns
        exact List.mem_map.mpr ⟨c, h0, by simp [hne]⟩
      obtain ⟨w, hw, hcw⟩ :=
        mem_words_of_mem (Nat.le_refl (cleanNbsp (getText [] p)).length) h1 hns
      have h3 : c ∈ normL (getText [] p) := mem_joinSp_of_mem hw hcw
      have h4 : c.toLower ∈ lowerT (normL (getText [] p)) :=
        List.mem_map_of_mem Char.toLower h3
      rw [heq] at h4
      have hinv : ("invoice".toList : Text) = ['i', 'n', 'v', 'o', 'i', 'c', 'e'] := by decide
      rw [hinv] at h4
      exact h4
  · left
    simp only [List.mem_singleton] at hsep
    subst hsep
    decide

theorem anchor_block_no_digit {p : Para} (h : isAnchor p = true) :
    ∀ c ∈ getText [' '] p, c.isDigit = false := by
  intro c hc
  rcases anchor_block_mem h c hc with h1 | h1
  · exact (isPySpace_safe h1).1
  · exact (lower_invoice_safe h1).1

theorem anchor_block_no_colon {p : Para} (h : isAnchor p = true) :
    ':' ∉ getText [' '] p := by
  intro hc
  rcases anchor_block_mem h ':' hc with h1 | h1
  · exact absurd h1 (by decide)
  · exact absurd h1 (by decide)

/-- C3 amended: the anchored layer of extract_invoice_meta actually searches
the following paragraph's text first and the anchor paragraph's own text
second, the opposite of the claimed priority; but the anchor paragraph's own
text (its normalized text is exactly the word invoice) can never match any of
the three field patterns, so every anchored-layer value comes from the
following paragraph's text alone. -/
theorem C3_anchor_paragraph_never_matches (ps : List Para) (i : Nat)
    (h : anchorIdx ps = some i) :
    grab_number (getText [' '] (ps.getD i [])) = none ∧
    grab_billing_date (getText [' '] (ps.getD i [])) = none ∧
    grab_currency (getText [' '] (ps.getD i [])) = none ∧
    ∀ nextTxt, anchoredLayer nextTxt (getText [' '] (ps.getD i [])) =
      ⟨orNum (grab_number nextTxt) none,
       orOpt (grab_billing_date nextTxt) none,
       orOpt (grab_currency nextTxt) none⟩ := by
  have ha : isAnchor (ps.getD i []) = true := anchorIdx_getD h
  have h1 : grab_number (getText [' '] (ps.getD i [])) = none :=
    grab_number_none_of_no_digit (anchor_block_no_digit ha)
  have h2 : grab_billing_date (getText [' '] (ps.getD i [])) = none :=
    grab_billing_date_none_of_no_digit (anchor_block_no_digit ha)
  have h3 : grab_currency (getText [' '] (ps.getD i [])) = none :=
    grab_currency_none_of_no_colon (anchor_block_no_colon ha)
  refine ⟨h1, h2, h3, ?_⟩
  intro nextTxt
  unfold anchoredLayer
  rw [h1, h2, h3]

/-- C3 witness: the amended theorem at a two-paragraph document whose anchor
is the word invoice; the metadata all comes from the following paragraph. -/
theorem C3_anchor_paragraph_never_matches_witness :
    anchorIdx [["invoice".toList],
      ["Invoice # 1234567890 Billing Cycle Date: JAN 15 2024 Currency: USD".toList]] = some 0 ∧
    grab_number (getText [' ']
      (([["invoice".toList],
        ["Invoice # 1234567890 Billing Cycle Date: JAN 15 2024 Currency: USD".toList]]).getD 0 [])) =
      none ∧
    extract_invoice_meta [["invoice".toList],
      ["Invoice # 1234567890 Billing Cycle Date: JAN 15 2024 Currency: USD".toList]] =
      ⟨some 1234567890, some ⟨2024, 1, 15⟩, some "USD".toList⟩ :=
  ⟨by decide,
   (C3_anchor_paragraph_never_matches
     [["invoice".toList],
      ["Invoice # 1234567890 Billing Cycle Date: JAN 15 2024 Currency: USD".toList]]
     0 (by decide)).1,
   by decide⟩

/-- C3 counterexample: the anchored-layer expression of parser.py lines
150-154, applied to an anchor text holding one labeled number and a following
text holding another, returns the following paragraph's number: the search
priority is following-paragraph-first, not anchor-paragraph-first as
claimed. -/
theorem C3_layer_prefers_following_paragraph :
    (anchoredLayer "Invoice # 2222222222".toList "Invoice # 1111111111".toList).inv_no =
      some 2222222222 ∧
    grab_number "Invoice # 1111111111".toList = some 1111111111 ∧
    grab_number "Invoice # 2222222222".toList = some 2222222222 ∧
    (2222222222 : Nat) ≠ 1111111111 :=
  ⟨by decide, by decide, by decide, by decide⟩

end Invoice
